import Mathlib

/-!
Shallow embedding of `src/btctoy/crypto/__init__.py`, an educational
secp256k1 / ECDSA library, together with proofs checking its
natural-language specification against the code.

Conventions of the embedding:
* Python arbitrary-precision integers become `Nat` (or `Int` where the code
  can see negative values), with every modular reduction written explicitly.
* Python code that can raise becomes `Except PyErr _`; each `PyErr`
  constructor records which Python exception site it models.
* `pow(b, e, m)` (CPython's three-argument `pow`) is embedded by `powMod`,
  a fuel-driven square-and-multiply definition that the kernel can evaluate
  on 256-bit arguments, with `powMod_eq` relating it to `b ^ e % m`.
-/

namespace BtcToy

/-! ### Module-level secp256k1 constants (lines 27-32 of the source) -/

def EC_A : Nat := 0

def EC_B : Nat := 7

def EC_PRIME : Nat := 2^256 - 2^32 - 2^9 - 2^8 - 2^7 - 2^6 - 2^4 - 2^0

def G_X : Nat := 0x79BE667EF9DCBBAC55A06295CE870B07029BFCDB2DCE28D959F2815B16F81798

def G_Y : Nat := 0x483ADA7726A3C4655DA4FBFC0E1108A8FD17B448A68554199C47D08FFB10D4B8

def G_ORDER : Nat := 0xFFFFFFFFFFFFFFFFFFFFFFFFFFFFFFFEBAAEDCE6AF48A03BBFD25E8CD0364141

/-- Python exception outcomes that the embedded functions can produce.
Each constructor names the kind of `raise` (or crash) site it models. -/
inductive PyErr where
  /-- `TypeError` raised for field/curve operand mismatches. -/
  | typeMismatch : PyErr
  /-- `ValueError` raised by the `ModularFieldInteger` / point constructors. -/
  | valueErr : PyErr
  /-- `AttributeError` from reading `.value` (or `.y`) on `None`,
  i.e. on the point at infinity. -/
  | attrNone : PyErr
  /-- `OverflowError` from `int.to_bytes` when the value does not fit. -/
  | overflow : PyErr
  /-- `IndexError` from indexing into an empty byte string. -/
  | indexErr : PyErr
  /-- `SyntaxError` raised by `Signature.parse` on malformed DER input. -/
  | syntaxErr : PyErr
  /-- Control flow falling off the end of `EllipcCurvePoint.__add__`
  (Python would return `None`); proved unreachable for well-formed points. -/
  | fellThrough : PyErr
deriving DecidableEq, Repr

/-! ### CPython's `pow(base, exp, mod)`

`powMod b e m` evaluates `b ^ e % m` by square-and-multiply.  The first
argument of `powModAux` is fuel; since the exponent halves at every step,
fuel `e` always suffices (`powMod_eq`). -/

def powModAux : Nat → Nat → Nat → Nat → Nat
  | 0, _, _, m => 1 % m
  | f + 1, b, e, m =>
    if e = 0 then 1 % m
    else
      let r := powModAux f (b * b % m) (e / 2) m
      if e % 2 = 1 then r * b % m else r

def powMod (b e m : Nat) : Nat := powModAux e b e m

/-! ### `ModularFieldInteger` (lines 51-104)

A field element stores `value` and `prime`.  The Python constructor
validates primality of `prime` (via the external `is_prime` collaborator,
whose code is not part of this repository) and reduces `value` modulo
`prime`; `mkModularFieldInteger` embeds it.  The arithmetic methods all
build their result through the same constructor with the operand's own
(already validated) prime and an already reduced value, so the constructor
re-check cannot change their outcome; the embedded operations therefore
inline the reduction and omit the redundant primality re-check. -/

structure ModularFieldInteger where
  value : Nat
  prime : Nat
deriving DecidableEq, Repr

/-- `ModularFieldInteger.__init__`: rejects a non-prime modulus, then stores
`value % prime` (Python `%` on a positive modulus is `Int.emod`, hence the
stored value is always in `[0, prime)`). -/
def mkModularFieldInteger (value : Int) (prime : Nat) : Except PyErr ModularFieldInteger :=
  if Nat.Prime prime then .ok ⟨(value % (prime : Int)).toNat, prime⟩
  else .error .valueErr

/-- `__add__`: `(self.value + other.value) % self.prime`, requiring equal primes. -/
def fadd (a b : ModularFieldInteger) : Except PyErr ModularFieldInteger :=
  if a.prime ≠ b.prime then .error .typeMismatch
  else .ok ⟨(a.value + b.value) % a.prime, a.prime⟩

/-- `__sub__`: `(self.value - other.value) % self.prime` over Python ints,
requiring equal primes. -/
def fsub (a b : ModularFieldInteger) : Except PyErr ModularFieldInteger :=
  if a.prime ≠ b.prime then .error .typeMismatch
  else .ok ⟨(((a.value : Int) - (b.value : Int)) % (a.prime : Int)).toNat, a.prime⟩

/-- `__mul__`: `(self.value * other.value) % self.prime`, requiring equal primes. -/
def fmul (a b : ModularFieldInteger) : Except PyErr ModularFieldInteger :=
  if a.prime ≠ b.prime then .error .typeMismatch
  else .ok ⟨(a.value * b.value) % a.prime, a.prime⟩

/-- `__pow__`: reduces the (possibly negative) integer exponent modulo
`prime - 1`, then modular exponentiation.  Never raises. -/
def fpow (a : ModularFieldInteger) (exponent : Int) : ModularFieldInteger :=
  ⟨powMod a.value (exponent % ((a.prime : Int) - 1)).toNat a.prime, a.prime⟩

/-- `__truediv__`: multiplication by the Fermat inverse
`pow(other.value, p - 2, p)`, requiring equal primes. -/
def fdiv (a b : ModularFieldInteger) : Except PyErr ModularFieldInteger :=
  if a.prime ≠ b.prime then .error .typeMismatch
  else .ok ⟨(a.value * powMod b.value (a.prime - 2) a.prime) % a.prime, a.prime⟩

/-- `__rmul__` (integer scalar times field element):
`(self.value * coefficient) % self.prime`.  Within this module the scalar
is always one of the non-negative literals `0`, `2`, `3`, so it is
embedded as a `Nat`. -/
def fsmul (c : Nat) (a : ModularFieldInteger) : ModularFieldInteger :=
  ⟨a.value * c % a.prime, a.prime⟩

/-! ### `EllipcCurvePoint` (lines 107-216)

The Python constructor accepts either both coordinates `None` (the point
at infinity) or both present and on the curve; any mixed state raises
`ValueError`.  Constructed points therefore carry both coordinates or
neither, which the embedding records as one `Option` of a pair. -/

structure EllipcCurvePoint where
  /-- `none` is the point at infinity (`x is None and y is None`),
  `some (x, y)` a finite point. -/
  coords : Option (ModularFieldInteger × ModularFieldInteger)
  a : ModularFieldInteger
  b : ModularFieldInteger
deriving DecidableEq, Repr

/-- `is_on_elliptic_curve` (line 35): `y**2 == x**3 + a*x + b`.  The
multiplications/additions on the right can raise on mismatched primes. -/
def is_on_elliptic_curve (x y a b : ModularFieldInteger) : Except PyErr Bool := do
  let ax ← fmul a x
  let t ← fadd (fpow x 3) ax
  let rhs ← fadd t b
  return fpow y 2 = rhs

/-- `EllipcCurvePoint.__init__`: infinity for `None, None`, `ValueError`
for a mixed state or an off-curve pair. -/
def mkEllipcCurvePoint (x y : Option ModularFieldInteger) (a b : ModularFieldInteger) :
    Except PyErr EllipcCurvePoint :=
  match x, y with
  | none, none => .ok ⟨none, a, b⟩
  | some xv, some yv => do
    let onCurve ← is_on_elliptic_curve xv yv a b
    if onCurve then .ok ⟨some (xv, yv), a, b⟩ else .error .valueErr
  | _, _ => .error .valueErr

/-- `EllipcCurvePoint.__add__` (lines 158-204), case for case.  The final
`.error .fellThrough` models the Python code falling off the end of the
method (returning `None`); it is unreachable because the preceding guards
are exhaustive once `a`/`b` agree. -/
def ecAdd (P Q : EllipcCurvePoint) : Except PyErr EllipcCurvePoint :=
  if P.a ≠ Q.a ∨ P.b ≠ Q.b then .error .typeMismatch
  else
    match P.coords, Q.coords with
    | none, _ => .ok Q
    | some _, none => .ok P
    | some (x1, y1), some (x2, y2) =>
      if x1 = x2 ∧ y1 ≠ y2 then .ok ⟨none, P.a, P.b⟩
      else if x1 ≠ x2 then do
        let dy ← fsub y2 y1
        let dx ← fsub x2 x1
        let s ← fdiv dy dx
        let t ← fsub (fpow s 2) x1
        let x3 ← fsub t x2
        let u ← fsub x1 x3
        let su ← fmul s u
        let y3 ← fsub su y1
        mkEllipcCurvePoint (some x3) (some y3) P.a P.b
      else if P = Q ∧ y1 = fsmul 0 x1 then .ok ⟨none, P.a, P.b⟩
      else if P = Q then do
        let num ← fadd (fsmul 3 (fpow x1 2)) P.a
        let s ← fdiv num (fsmul 2 y1)
        let x3 ← fsub (fpow s 2) (fsmul 2 x1)
        let u ← fsub x1 x3
        let su ← fmul s u
        let y3 ← fsub su y1
        mkEllipcCurvePoint (some x3) (some y3) P.a P.b
      else .error .fellThrough

/-- The loop body of `EllipcCurvePoint.__rmul__` (lines 206-216).  The
first argument is fuel; the Python loop runs `while coef:` with
`coef >>= 1` each round, so it performs at most `log2 coef + 1` rounds and
fuel `coef` always suffices. -/
def ecRmulLoop : Nat → Nat → EllipcCurvePoint → EllipcCurvePoint →
    Except PyErr EllipcCurvePoint
  | 0, _, _, result => .ok result
  | fuel + 1, coef, current, result =>
    if coef = 0 then .ok result
    else do
      let result ← if coef % 2 = 1 then ecAdd result current else pure result
      let current ← ecAdd current current
      ecRmulLoop fuel (coef / 2) current result

/-- `EllipcCurvePoint.__rmul__`: binary double-and-add starting from the
point at infinity.  Every call in this module passes a non-negative
coefficient (the secp256k1 override reduces modulo `G_ORDER` first), so
the coefficient is embedded as a `Nat`. -/
def ecRmul (coefficient : Nat) (P : EllipcCurvePoint) : Except PyErr EllipcCurvePoint :=
  ecRmulLoop coefficient coefficient P ⟨none, P.a, P.b⟩

/-! ### The secp256k1 binding (lines 219-319) -/

/-- The module-level constant `A = S256Integer(EC_A)`. -/
def A : ModularFieldInteger := ⟨EC_A, EC_PRIME⟩

/-- The module-level constant `B = S256Integer(EC_B)`. -/
def B : ModularFieldInteger := ⟨EC_B, EC_PRIME⟩

/-- `S256Point.__init__`: coordinates given as Python ints are wrapped in
`S256Integer`, i.e. reduced modulo `EC_PRIME`, and the curve coefficients
are forced to `A`, `B`; then the generic validating constructor runs. -/
def mkS256Point (x y : Option Nat) : Except PyErr EllipcCurvePoint :=
  mkEllipcCurvePoint (x.map fun v => ⟨v % EC_PRIME, EC_PRIME⟩)
    (y.map fun v => ⟨v % EC_PRIME, EC_PRIME⟩) A B

/-- The module-level generator `G = S256Point(G_X, G_Y)` (line 316).
`mkS256Point_G` checks that the validating constructor produces it. -/
def G : EllipcCurvePoint := ⟨some (⟨G_X, EC_PRIME⟩, ⟨G_Y, EC_PRIME⟩), A, B⟩

/-- `S256Point.__rmul__` (lines 263-265): reduce the coefficient modulo the
group order, then the generic double-and-add. -/
def s256Rmul (coefficient : Nat) (P : EllipcCurvePoint) : Except PyErr EllipcCurvePoint :=
  ecRmul (coefficient % G_ORDER) P

/-- `Signature` (lines 322-331): a plain record of the two components. -/
structure Signature where
  r : Nat
  s : Nat
deriving DecidableEq, Repr

/-- `S256Point.verify` (lines 267-272).  `total.x.value` crashes with an
`AttributeError` when `total` is the point at infinity (`total.x is None`);
the embedding surfaces that as `.error .attrNone`. -/
def verify (P : EllipcCurvePoint) (z : Nat) (sig : Signature) : Except PyErr Bool := do
  let s_inv := powMod sig.s (G_ORDER - 2) G_ORDER
  let u := z * s_inv % G_ORDER
  let v := sig.r * s_inv % G_ORDER
  let uG ← s256Rmul u G
  let vP ← s256Rmul v P
  let total ← ecAdd uG vP
  match total.coords with
  | none => .error .attrNone
  | some (tx, _) => .ok (tx.value = sig.r)

/-- Lines 385-390 of `PrivateKey.sign`, parameterized by the nonce `k`
produced by `deterministic_k` on line 384.

The low-s comparison on line 388 is `s > G_ORDER / 2` with Python's *float*
division: `G_ORDER / 2` is the correctly rounded double of `n / 2`, and
since `n = 2^256 - 432420386565659656852420866394968145599` lies within
`2^128` of `2^256` while doubles near `2^255` are `2^203` apart, that
double is exactly `2^255`.  The int-against-float comparison is exact, so
the executed test is `s > 2^255` — not `s > n / 2`. -/
def signWithNonce (secret z k : Nat) : Except PyErr Signature := do
  let kG ← s256Rmul k G
  let r ← match kG.coords with
    | none => Except.error PyErr.attrNone
    | some (x, _) => Except.ok x.value
  let k_inv := powMod k (G_ORDER - 2) G_ORDER
  let s := (z + r * secret) * k_inv % G_ORDER
  let s := if 2^255 < s then G_ORDER - s else s
  return ⟨r, s⟩

/-! ### Byte strings

Python `bytes` values become `List Nat` with every element below 256. -/

/-- Big-endian rendering on exactly `k` bytes (the core of
`int.to_bytes(k, "big")`). -/
def natToBytesBE : Nat → Nat → List Nat
  | 0, _ => []
  | k + 1, v => natToBytesBE k (v / 256) ++ [v % 256]

/-- `int.to_bytes(32, "big")`: raises `OverflowError` when the value needs
more than 32 bytes. -/
def toBytes32 (v : Nat) : Except PyErr (List Nat) :=
  if v < 2 ^ 256 then .ok (natToBytesBE 32 v) else .error .overflow

/-- `int.from_bytes(_, "big")`. -/
def fromBytesBE (l : List Nat) : Nat := l.foldl (fun acc b => acc * 256 + b) 0

/-- `bytes.lstrip(b"\x00")`. -/
def lstripZeros : List Nat → List Nat
  | [] => []
  | b :: t => if b = 0 then lstripZeros t else b :: t

/-- The r-half of `Signature.der` (lines 334-340, identically 341-345 for
s): 32-byte big-endian, strip leading zero bytes (`rbin[0]` raises
`IndexError` when everything was stripped), prepend `0x00` when the top
bit of the leading byte is set, and wrap as `bytes([2, len]) + payload`. -/
def derInt (v : Nat) : Except PyErr (List Nat) := do
  let vbin ← toBytes32 v
  let vbin := lstripZeros vbin
  match vbin with
  | [] => .error .indexErr
  | b0 :: rest =>
    let vbin := if b0 &&& 0x80 ≠ 0 then 0 :: b0 :: rest else b0 :: rest
    return 2 :: vbin.length :: vbin

/-- `Signature.der` (lines 333-346).  The two length bytes written by
`bytes([2, len(rbin)])` and `bytes([0x30, len(result)])` are exact because
both lengths are at most 33 resp. 70 < 256. -/
def der (sig : Signature) : Except PyErr (List Nat) := do
  let rfield ← derInt sig.r
  let sfield ← derInt sig.s
  let result := rfield ++ sfield
  return 0x30 :: result.length :: result

/-- `s.read(1)[0]` on a `BytesIO` cursor: `IndexError` on an exhausted
stream, otherwise the next byte and the rest. -/
def readByte : List Nat → Except PyErr (Nat × List Nat)
  | [] => .error .indexErr
  | b :: t => .ok (b, t)

/-- `Signature.parse` (lines 348-369) over the original byte string
`bin`; `read(k)` on `BytesIO` returns at most `k` bytes without error,
hence the `take`/`drop` pair. -/
def sigParse (bin : List Nat) : Except PyErr Signature := do
  let (compound, st) ← readByte bin
  if compound ≠ 0x30 then .error .syntaxErr
  else do
  let (length, st) ← readByte st
  if length + 2 ≠ bin.length then .error .syntaxErr
  else do
  let (marker, st) ← readByte st
  if marker ≠ 0x02 then .error .syntaxErr
  else do
  let (rlength, st) ← readByte st
  let r := fromBytesBE (st.take rlength)
  let st := st.drop rlength
  let (marker, st) ← readByte st
  if marker ≠ 0x02 then .error .syntaxErr
  else do
  let (slength, st) ← readByte st
  let s := fromBytesBE (st.take slength)
  if bin.length ≠ 6 + rlength + slength then .error .syntaxErr
  else return ⟨r, s⟩

/-! ### SEC point encoding (lines 274-311) -/

/-- `S256Point.sec` (lines 274-293): header byte `0x02`/`0x03` by the
parity of `y` followed by 32-byte big-endian `x` when compressed, header
`0x04` followed by `x` then `y` when not.  Reading `self.y.value` on the
point at infinity crashes with `AttributeError`. -/
def sec (P : EllipcCurvePoint) (compressed : Bool) : Except PyErr (List Nat) := do
  match P.coords with
  | none => .error .attrNone
  | some (x, y) =>
    if compressed then do
      let xb ← toBytes32 x.value
      if y.value % 2 = 0 then return 2 :: xb else return 3 :: xb
    else do
      let xb ← toBytes32 x.value
      let yb ← toBytes32 y.value
      return 4 :: (xb ++ yb)

/-- `S256Integer.sqrt` (lines 230-231): `self ** ((EC_PRIME + 1) // 4)`. -/
def s256Sqrt (a : ModularFieldInteger) : ModularFieldInteger :=
  fpow a (((EC_PRIME : Int) + 1) / 4)

/-- The right-hand side `x**3 + a*x + b` of the curve equation over the
secp256k1 coefficients, as computed by `is_on_elliptic_curve`; used by the
spec-modelled decoder below. -/
def is_on_elliptic_curve_rhs (x : ModularFieldInteger) : Except PyErr ModularFieldInteger := do
  let ax ← fmul A x
  let t ← fadd (fpow x 3) ax
  fadd t B

/-- Modelled from the spec: `S256Point.parse` is left unimplemented in the
source (its body is `pass`, see the design note on the unimplemented SEC
decode), so this decoder follows the spec text for `PointCodec.decode`:
read the header byte; for `0x04` split the remaining 64 bytes into `x`
and `y` and construct the point (validating the curve equation); for
`0x02`/`0x03` read the 32-byte `x`, compute `y² = x³ + a·x + b` in the
field, take the field square root via `x^((p+1)/4)` (the binding's `sqrt`),
and select the root whose parity matches the header; any other header
byte, or a resulting point failing curve validation, is an error. -/
def s256Parse (sec_bin : List Nat) : Except PyErr EllipcCurvePoint :=
  match sec_bin with
  | [] => .error .valueErr
  | h :: rest =>
    if h = 4 then
      if rest.length = 64 then
        mkS256Point (some (fromBytesBE (rest.take 32))) (some (fromBytesBE (rest.drop 32)))
      else .error .valueErr
    else if (h = 2 ∨ h = 3) ∧ rest.length = 32 then
      let x : ModularFieldInteger := ⟨fromBytesBE rest % EC_PRIME, EC_PRIME⟩
      match is_on_elliptic_curve_rhs x with
      | .error e => .error e
      | .ok ysq =>
        let w := s256Sqrt ysq
        let y := if w.value % 2 = (if h = 3 then 1 else 0) then w
                 else ⟨(EC_PRIME - w.value) % EC_PRIME, EC_PRIME⟩
        mkEllipcCurvePoint (some x) (some y) A B
    else .error .valueErr

/-! ### SHA-256, HMAC and the deterministic nonce (lines 392-410)

`deterministic_k` builds its nonce from HMAC-SHA256.  SHA-256 is embedded
bit-for-bit (FIPS 180-4) over byte lists, with 32-bit words as `Nat`
reduced modulo `2^32` explicitly. -/

def w32 (a : Nat) : Nat := a % 2 ^ 32

def rotr32 (n w : Nat) : Nat := ((w >>> n) ||| (w <<< (32 - n))) % 2 ^ 32

/-- The 64 SHA-256 round constants, packed big-endian into one number
(unpacked below by `toWords`). -/
def sha256Kpacked : Nat :=
  0x428a2f9871374491b5c0fbcfe9b5dba53956c25b59f111f1923f82a4ab1c5ed5d807aa9812835b01243185be550c7dc372be5d7480deb1fe9bdc06a7c19bf174e49b69c1efbe47860fc19dc6240ca1cc2de92c6f4a7484aa5cb0a9dc76f988da983e5152a831c66db00327c8bf597fc7c6e00bf3d5a7914706ca63511429296727b70a852e1b21384d2c6dfc53380d13650a7354766a0abb81c2c92e92722c85a2bfe8a1a81a664bc24b8b70c76c51a3d192e819d6990624f40e3585106aa07019a4c1161e376c082748774c34b0bcb5391c0cb34ed8aa4a5b9cca4f682e6ff3748f82ee78a5636f84c878148cc7020890befffaa4506cebbef9a3f7c67178f2

/-- The 8 initial SHA-256 state words, packed big-endian. -/
def sha256H0packed : Nat := 0x6a09e667bb67ae853c6ef372a54ff53a510e527f9b05688c1f83d9ab5be0cd19

def sha256Pad (msg : List Nat) : List Nat :=
  msg ++ [0x80] ++ List.replicate ((120 - (msg.length + 1) % 64) % 64) 0 ++
    natToBytesBE 8 (8 * msg.length)

/-- Split into 64-byte blocks (first argument is fuel). -/
def toBlocks : Nat → List Nat → List (List Nat)
  | 0, _ => []
  | _, [] => []
  | f + 1, l => l.take 64 :: toBlocks f (l.drop 64)

/-- Split a 64-byte block into 16 big-endian 32-bit words (fuel-driven). -/
def toWords : Nat → List Nat → List Nat
  | 0, _ => []
  | _, [] => []
  | f + 1, l => fromBytesBE (l.take 4) :: toWords f (l.drop 4)

def sha256K : List Nat := toWords 64 (natToBytesBE 256 sha256Kpacked)

def sha256H0 : List Nat := toWords 8 (natToBytesBE 32 sha256H0packed)

/-- Message-schedule extension from 16 to 64 words; `i` counts upward. -/
def sha256Extend : Nat → Array Nat → Array Nat
  | 0, ws => ws
  | f + 1, ws =>
    let i := ws.size
    let s0 := rotr32 7 (ws.getD (i - 15) 0) ^^^ rotr32 18 (ws.getD (i - 15) 0) ^^^
      (ws.getD (i - 15) 0 >>> 3)
    let s1 := rotr32 17 (ws.getD (i - 2) 0) ^^^ rotr32 19 (ws.getD (i - 2) 0) ^^^
      (ws.getD (i - 2) 0 >>> 10)
    sha256Extend f (ws.push (w32 (ws.getD (i - 16) 0 + s0 + ws.getD (i - 7) 0 + s1)))

/-- One round of the compression function: state is the 8-word working
list `[a,b,c,d,e,f,g,h]`, `kw` the round constant plus schedule word. -/
def sha256Round (st : List Nat) (kw : Nat) : List Nat :=
  let a := st.getD 0 0
  let b := st.getD 1 0
  let c := st.getD 2 0
  let d := st.getD 3 0
  let e := st.getD 4 0
  let f := st.getD 5 0
  let g := st.getD 6 0
  let h := st.getD 7 0
  let s1 := rotr32 6 e ^^^ rotr32 11 e ^^^ rotr32 25 e
  let ch := (e &&& f) ^^^ ((2 ^ 32 - 1 - e) &&& g)
  let temp1 := w32 (h + s1 + ch + kw)
  let s0 := rotr32 2 a ^^^ rotr32 13 a ^^^ rotr32 22 a
  let maj := (a &&& b) ^^^ (a &&& c) ^^^ (b &&& c)
  let temp2 := w32 (s0 + maj)
  [w32 (temp1 + temp2), a, b, c, w32 (d + temp1), e, f, g]

def sha256Block (h : List Nat) (block : List Nat) : List Nat :=
  let ws := sha256Extend 48 (Array.mk (toWords 16 block))
  let kws := List.zipWith (fun k w => w32 (k + w)) sha256K ws.toList
  let st := kws.foldl sha256Round h
  List.zipWith (fun x y => w32 (x + y)) h st

def sha256 (msg : List Nat) : List Nat :=
  let padded := sha256Pad msg
  let blocks := toBlocks padded.length padded
  let h := blocks.foldl sha256Block sha256H0
  h.foldr (fun w acc => natToBytesBE 4 w ++ acc) []

/-- `hmac.new(key, msg, sha256).digest()` for a key of at most 64 bytes
(every call in this module uses 32-byte keys). -/
def hmacSha256 (key msg : List Nat) : List Nat :=
  let key := key ++ List.replicate (64 - key.length) 0
  let opad := key.map (fun b => b ^^^ 0x5c)
  let ipad := key.map (fun b => b ^^^ 0x36)
  sha256 (opad ++ sha256 (ipad ++ msg))

/-- The `while True` loop of `deterministic_k`; the Python loop has no
bound, so the embedding carries fuel — exhaustion (never observed for
these parameters) is modelled as an error. -/
def detKLoop : Nat → List Nat → List Nat → Except PyErr Nat
  | 0, _, _ => .error .fellThrough
  | f + 1, k, v =>
    let v' := hmacSha256 k v
    let candidate := fromBytesBE v'
    if 1 ≤ candidate ∧ candidate < G_ORDER then .ok candidate
    else
      let k' := hmacSha256 k (v' ++ [0x00])
      detKLoop f k' (hmacSha256 k' v')

/-- `PrivateKey.deterministic_k` (lines 392-410). -/
def deterministic_k (secret z : Nat) : Except PyErr Nat := do
  let z := if G_ORDER < z then z - G_ORDER else z
  let z_bytes ← toBytes32 z
  let secret_bytes ← toBytes32 secret
  let k := List.replicate 32 0x00
  let v := List.replicate 32 0x01
  let k := hmacSha256 k (v ++ [0x00] ++ secret_bytes ++ z_bytes)
  let v := hmacSha256 k v
  let k := hmacSha256 k (v ++ [0x01] ++ secret_bytes ++ z_bytes)
  let v := hmacSha256 k v
  detKLoop (2 ^ 64) k v

/-- `PrivateKey.sign` (lines 383-390): the deterministic nonce feeding the
signing equations of `signWithNonce`. -/
def sign (secret z : Nat) : Except PyErr Signature := do
  let k ← deterministic_k secret z
  signWithNonce secret z k

/-! ### Proof-side views

`Represents` relates an embedded field element to the residue it denotes
in `ZMod p`; `toWeierstrass` is the Mathlib Weierstrass curve carrying the
same short-form coefficients.  Both are glue for the proofs and embed no
source code. -/

/-- The field element `m` carries modulus `p`, a reduced value, and
denotes the residue `z`. -/
def Represents (p : Nat) (m : ModularFieldInteger) (z : ZMod p) : Prop :=
  m.prime = p ∧ m.value < p ∧ (m.value : ZMod p) = z

/-- The short Weierstrass curve `y² = x³ + a·x + b` over `ZMod p`. -/
def toWeierstrass (p a b : Nat) : WeierstrassCurve.Affine (ZMod p) :=
  { a₁ := 0, a₂ := 0, a₃ := 0, a₄ := (a : ZMod p), a₆ := (b : ZMod p) }

/-! ## Theorems

General lemmas first, then one theorem per specification claim (with its
witness or counterexample where required). -/

/-! ### `powMod` agrees with `b ^ e % m` -/

theorem powModAux_eq (f : Nat) : ∀ b e m : Nat, e ≤ f → 0 < m →
    powModAux f b e m = b ^ e % m := by
  induction f with
  | zero =>
    intro b e m he _
    interval_cases e
    simp [powModAux]
  | succ f ih =>
    intro b e m he hm
    by_cases h0 : e = 0
    · subst h0; simp [powModAux]
    · have hdiv : e / 2 ≤ f := by
        have : e / 2 < e := Nat.div_lt_self (Nat.pos_of_ne_zero h0) (by omega)
        omega
      have hrec := ih (b * b % m) (e / 2) m hdiv hm
      have hbb : (b * b % m) ^ (e / 2) % m = (b ^ 2) ^ (e / 2) % m := by
        rw [Nat.pow_mod, Nat.mod_mod_of_dvd _ (dvd_refl m), ← Nat.pow_mod, pow_two]
      rw [powModAux, if_neg h0]
      simp only [hrec, hbb, ← pow_mul]
      rcases Nat.mod_two_eq_zero_or_one e with hpar | hpar
      · rw [if_neg (by omega)]
        have h2 : 2 * (e / 2) = e := by omega
        rw [h2]
      · rw [if_pos hpar, Nat.mod_mul_mod, ← pow_succ]
        have h2 : 2 * (e / 2) + 1 = e := by omega
        rw [h2]

theorem powMod_eq (b e m : Nat) (hm : 0 < m) : powMod b e m = b ^ e % m :=
  powModAux_eq e b e m (le_refl e) hm

theorem powMod_lt (b e m : Nat) (hm : 0 < m) : powMod b e m < m := by
  rw [powMod_eq b e m hm]; exact Nat.mod_lt _ hm

theorem powMod_zero_base (e m : Nat) (he : 0 < e) (hm : 0 < m) : powMod 0 e m = 0 := by
  rw [powMod_eq 0 e m hm, Nat.zero_pow he, Nat.zero_mod]

theorem toNat_emod_lt (x : Int) (p : Nat) (hp : 0 < p) : (x % (p : Int)).toNat < p := by
  have hp' : (0 : Int) < (p : Int) := by exact_mod_cast hp
  have h1 := Int.emod_lt_of_pos x hp'
  have h2 := Int.emod_nonneg x (by omega : (p : Int) ≠ 0)
  omega

/-! ### Byte-string lemmas -/

theorem fromBytesBE_acc (l : List Nat) : ∀ a : Nat,
    l.foldl (fun acc b => acc * 256 + b) a = a * 256 ^ l.length + fromBytesBE l := by
  induction l with
  | nil => intro a; simp [fromBytesBE]
  | cons b t ih =>
    intro a
    simp only [List.foldl_cons, List.length_cons, fromBytesBE] at *
    rw [ih (a * 256 + b), ih (0 * 256 + b)]
    ring

theorem fromBytesBE_cons (b : Nat) (t : List Nat) :
    fromBytesBE (b :: t) = b * 256 ^ t.length + fromBytesBE t := by
  simp only [fromBytesBE, List.foldl_cons, Nat.zero_mul, Nat.zero_add]
  exact fromBytesBE_acc t b

theorem fromBytesBE_append (l1 l2 : List Nat) :
    fromBytesBE (l1 ++ l2) = fromBytesBE l1 * 256 ^ l2.length + fromBytesBE l2 := by
  simp only [fromBytesBE, List.foldl_append]
  exact fromBytesBE_acc l2 _

theorem natToBytesBE_length (k v : Nat) : (natToBytesBE k v).length = k := by
  induction k generalizing v with
  | zero => rfl
  | succ k ih => simp [natToBytesBE, ih]

theorem fromBytesBE_natToBytesBE (k v : Nat) :
    fromBytesBE (natToBytesBE k v) = v % 256 ^ k := by
  induction k generalizing v with
  | zero => simp [natToBytesBE, fromBytesBE, Nat.mod_one]
  | succ k ih =>
    rw [natToBytesBE, fromBytesBE_append, ih]
    simp only [fromBytesBE_cons, fromBytesBE, List.length_cons, List.length_nil,
      List.foldl_cons, List.foldl_nil, pow_zero, pow_one, Nat.zero_mul, Nat.zero_add,
      Nat.mul_one]
    have h256 : (0 : Nat) < 256 ^ k := Nat.pos_pow_of_pos k (by omega)
    have := Nat.div_add_mod v 256
    have hm : v % 256 ^ (k + 1) = v % 256 + 256 * (v / 256 % 256 ^ k) := by
      rw [pow_succ, Nat.mul_comm (256 ^ k) 256, Nat.mod_mul]
    omega

theorem fromBytesBE_natToBytesBE_of_lt (k v : Nat) (h : v < 256 ^ k) :
    fromBytesBE (natToBytesBE k v) = v := by
  rw [fromBytesBE_natToBytesBE, Nat.mod_eq_of_lt h]

theorem fromBytesBE_lstripZeros (l : List Nat) :
    fromBytesBE (lstripZeros l) = fromBytesBE l := by
  induction l with
  | nil => rfl
  | cons b t ih =>
    by_cases hb : b = 0
    · subst hb
      rw [lstripZeros, if_pos rfl, ih, fromBytesBE_cons]
      omega
    · rw [lstripZeros, if_neg hb]

theorem fromBytesBE_of_lstripZeros_nil (l : List Nat) (h : lstripZeros l = []) :
    fromBytesBE l = 0 := by
  rw [← fromBytesBE_lstripZeros, h]; rfl

theorem natToBytesBE_zero (k : Nat) : natToBytesBE k 0 = List.replicate k 0 := by
  induction k with
  | zero => rfl
  | succ k ih =>
    rw [natToBytesBE, Nat.zero_div, ih, Nat.zero_mod, ← List.replicate_succ']

theorem lstripZeros_replicate_zero (k : Nat) :
    lstripZeros (List.replicate k 0) = [] := by
  induction k with
  | zero => rfl
  | succ k ih => rw [List.replicate_succ, lstripZeros, if_pos rfl, ih]

theorem lstripZeros_length_le (l : List Nat) : (lstripZeros l).length ≤ l.length := by
  induction l with
  | nil => simp [lstripZeros]
  | cons b t ih =>
    by_cases hb : b = 0
    · subst hb; rw [lstripZeros, if_pos rfl]; simp; omega
    · rw [lstripZeros, if_neg hb]

/-! ### DER encode/decode lemmas -/

theorem okBind {α β : Type} (a : α) (f : α → Except PyErr β) :
    (Except.ok a >>= f) = f a := rfl

theorem okBindE {α β : Type} (a : α) (f : α → Except PyErr β) :
    (Except.ok a : Except PyErr α).bind f = f a := rfl

theorem errBind {α β : Type} (e : PyErr) (f : α → Except PyErr β) :
    ((Except.error e : Except PyErr α) >>= f) = .error e := rfl

theorem pow256_32 : (256 : Nat) ^ 32 = 2 ^ 256 := by norm_num

theorem derInt_spec (v : Nat) (h1 : 1 ≤ v) (h2 : v < 2 ^ 256) :
    ∃ payload, derInt v = .ok (2 :: payload.length :: payload) ∧
      fromBytesBE payload = v ∧ 1 ≤ payload.length ∧ payload.length ≤ 33 := by
  have h2' : v < 256 ^ 32 := by rw [pow256_32]; exact h2
  have hfb : fromBytesBE (natToBytesBE 32 v) = v := fromBytesBE_natToBytesBE_of_lt 32 v h2'
  have hlen : (natToBytesBE 32 v).length = 32 := natToBytesBE_length 32 v
  obtain ⟨b0, rest, hsplit⟩ : ∃ b0 rest, lstripZeros (natToBytesBE 32 v) = b0 :: rest := by
    cases hc : lstripZeros (natToBytesBE 32 v) with
    | nil =>
      have := fromBytesBE_of_lstripZeros_nil _ hc
      omega
    | cons b0 rest => exact ⟨b0, rest, rfl⟩
  have hfbs : fromBytesBE (b0 :: rest) = v := by
    rw [← hsplit, fromBytesBE_lstripZeros, hfb]
  have hlens : (b0 :: rest).length ≤ 32 := by
    rw [← hsplit]
    exact (lstripZeros_length_le _).trans (le_of_eq hlen)
  have htb : toBytes32 v = .ok (natToBytesBE 32 v) := by rw [toBytes32, if_pos h2]
  rw [derInt, htb, okBind, hsplit]
  by_cases hb : b0 &&& 0x80 ≠ 0
  · refine ⟨0 :: b0 :: rest, ?_, ?_, ?_, ?_⟩
    · simp only [if_pos hb]; rfl
    · rw [fromBytesBE_cons, Nat.zero_mul, Nat.zero_add, hfbs]
    · simp
    · simp only [List.length_cons] at hlens ⊢
      omega
  · refine ⟨b0 :: rest, ?_, ?_, ?_, ?_⟩
    · simp only [if_neg hb]; rfl
    · exact hfbs
    · simp
    · simp only [List.length_cons] at hlens ⊢
      omega

theorem derInt_ok_iff (v : Nat) :
    (∃ out, derInt v = .ok out) ↔ 1 ≤ v ∧ v < 2 ^ 256 := by
  constructor
  · rintro ⟨out, hout⟩
    by_cases h2 : v < 2 ^ 256
    · by_cases h1 : 1 ≤ v
      · exact ⟨h1, h2⟩
      · exfalso
        have hv : v = 0 := by omega
        subst hv
        rw [derInt, toBytes32, if_pos h2, okBind, natToBytesBE_zero,
          lstripZeros_replicate_zero] at hout
        exact Except.noConfusion hout
    · exfalso
      rw [derInt, toBytes32, if_neg h2, errBind] at hout
      exact Except.noConfusion hout
  · rintro ⟨h1, h2⟩
    obtain ⟨payload, hp, -, -, -⟩ := derInt_spec v h1 h2
    exact ⟨_, hp⟩

theorem sigParse_shape (rp sp : List Nat) :
    sigParse (0x30 :: ((2 :: rp.length :: rp) ++ (2 :: sp.length :: sp)).length ::
        ((2 :: rp.length :: rp) ++ (2 :: sp.length :: sp))) =
      .ok ⟨fromBytesBE rp, fromBytesBE sp⟩ := by
  simp only [sigParse, readByte, okBind, List.cons_append]
  rw [if_neg (by decide),
    if_neg (by simp only [List.length_cons, List.length_append]; omega),
    if_neg (by decide), List.drop_left]
  simp only [okBind]
  rw [if_neg (by decide),
    if_neg (by simp only [List.length_cons, List.length_append]; omega),
    List.take_left, List.take_length]
  rfl

/-- C4 helper: `der` followed by `Signature.parse` restores the components. -/
theorem der_then_parse (r s : Nat) (hr1 : 1 ≤ r) (hr2 : r < 2 ^ 256)
    (hs1 : 1 ≤ s) (hs2 : s < 2 ^ 256) :
    ∃ out, der ⟨r, s⟩ = .ok out ∧ sigParse out = .ok ⟨r, s⟩ := by
  obtain ⟨rp, hrd, hrv, -, -⟩ := derInt_spec r hr1 hr2
  obtain ⟨sp, hsd, hsv, -, -⟩ := derInt_spec s hs1 hs2
  refine ⟨0x30 :: ((2 :: rp.length :: rp) ++ (2 :: sp.length :: sp)).length ::
      ((2 :: rp.length :: rp) ++ (2 :: sp.length :: sp)), ?_, ?_⟩
  · rw [der, hrd, okBind, hsd, okBind]
    rfl
  · have h := sigParse_shape rp sp
    rw [hrv, hsv] at h
    exact h

/-! ### Claim C4 (DER round trip) and claim C10 (DER precondition) -/

/-- C4: for every valid signature value pair `(r, s)` — any components in
`[1, 2^256)`, which includes all pairs in `[1, n-1]`, pairs whose minimal
big-endian form needs a `0x00` sign-padding byte, and pairs whose 32-byte
form has leading zero bytes to strip — decoding the DER encoding of
`Signature(r, s)` yields the original components. -/
theorem C4_der_round_trip (r s : Nat) (hr1 : 1 ≤ r) (hr2 : r < 2 ^ 256)
    (hs1 : 1 ≤ s) (hs2 : s < 2 ^ 256) :
    ∃ out, der ⟨r, s⟩ = .ok out ∧ sigParse out = .ok ⟨r, s⟩ :=
  der_then_parse r s hr1 hr2 hs1 hs2

/-- Witness for C4 at `r = 0x80` (needs the sign-padding byte and strips
31 leading zero bytes) and `s = 0x7F` (no padding). -/
theorem C4_der_round_trip_witness :
    ∃ out, der ⟨0x80, 0x7F⟩ = .ok out ∧ sigParse out = .ok ⟨0x80, 0x7F⟩ :=
  C4_der_round_trip 0x80 0x7F (by decide) (by norm_num) (by decide) (by norm_num)

/-- C10: `Signature.der` succeeds exactly when both components lie in
`[1, 2^256)`.  A zero component strips to an empty byte string whose
first byte is then read (`IndexError`); a component of 33 or more bytes
makes `int.to_bytes(32, "big")` raise `OverflowError`; inside the range
`der` always returns without error. -/
theorem C10_der_precondition (r s : Nat) :
    (∃ out, der ⟨r, s⟩ = .ok out) ↔ 1 ≤ r ∧ r < 2 ^ 256 ∧ 1 ≤ s ∧ s < 2 ^ 256 := by
  constructor
  · rintro ⟨out, hout⟩
    simp only [der] at hout
    cases hdr : derInt r with
    | error e => rw [hdr, errBind] at hout; exact Except.noConfusion hout
    | ok rf =>
      rw [hdr, okBind] at hout
      cases hds : derInt s with
      | error e => rw [hds, errBind] at hout; exact Except.noConfusion hout
      | ok sf =>
        have h1 := (derInt_ok_iff r).mp ⟨rf, hdr⟩
        have h2 := (derInt_ok_iff s).mp ⟨sf, hds⟩
        exact ⟨h1.1, h1.2, h2.1, h2.2⟩
  · rintro ⟨h1, h2, h3, h4⟩
    obtain ⟨out, h, -⟩ := der_then_parse r s h1 h2 h3 h4
    exact ⟨out, h⟩

/-! ### Claim C3 (scalar reduction modulo the group order) -/

/-- C3: `S256Point.__rmul__` reduces its scalar modulo `G_ORDER` before
the double-and-add loop, so `(k % n) * G == k * G` for every `k ≥ 0`, and
in particular `n * G` is the point at infinity. -/
theorem C3_rmul_mod_order :
    (∀ k : Nat, s256Rmul (k % G_ORDER) G = s256Rmul k G) ∧
      s256Rmul G_ORDER G = .ok ⟨none, A, B⟩ := by
  constructor
  · intro k
    rw [s256Rmul, s256Rmul, Nat.mod_mod_of_dvd k (dvd_refl G_ORDER)]
  · rw [s256Rmul, Nat.mod_self]
    rfl

/-! ### Claim C5 (`verify` with `s = 0`) -/

theorem s256Rmul_zero (P : EllipcCurvePoint) :
    s256Rmul 0 P = .ok ⟨none, P.a, P.b⟩ := by
  rw [s256Rmul, Nat.zero_mod]
  rfl

/-- C5: `verify` performs no range check on the signature components: for
every secp256k1 public point and every `z`, a signature with `s = 0` makes
`pow(0, n-2, n)` silently return `0`, both scalar multiples collapse to
the point at infinity, and reading `total.x.value` crashes with an
`AttributeError` — `verify` fails instead of returning a boolean. -/
theorem C5_verify_s_zero (P : EllipcCurvePoint) (hPa : P.a = A) (hPb : P.b = B)
    (z r : Nat) : verify P z ⟨r, 0⟩ = .error .attrNone := by
  obtain ⟨pc, pa, pb⟩ := P
  simp only at hPa hPb
  subst hPa; subst hPb
  have hsinv : powMod 0 (G_ORDER - 2) G_ORDER = 0 :=
    powMod_zero_base (G_ORDER - 2) G_ORDER (by decide) (by decide)
  simp only [verify, hsinv, Nat.mul_zero, Nat.zero_mod, s256Rmul_zero, okBind]
  rfl

/-- Witness for C5 at the generator with `z = 0`, `r = 5`. -/
theorem C5_verify_s_zero_witness : verify G 0 ⟨5, 0⟩ = .error .attrNone :=
  C5_verify_s_zero G rfl rfl 0 5

/-! ### Claim C8 (exponent reduction and Fermat) -/

/-- C8: `__pow__` reduces its integer exponent modulo `p - 1` before the
modular exponentiation, and consequently every nonzero field element `a`
with prime modulus `p` satisfies `a ** (p - 1) == one` (Fermat): the
reduced exponent is `0` and `pow(value, 0, p) = 1`. -/
theorem C8_fpow_reduction_and_fermat (a : ModularFieldInteger)
    (hp : Nat.Prime a.prime) :
    (∀ e : Int, fpow a e = fpow a (e % ((a.prime : Int) - 1))) ∧
      (a.value ≠ 0 → fpow a ((a.prime : Int) - 1) = ⟨1, a.prime⟩) := by
  constructor
  · intro e
    rw [fpow, fpow, Int.emod_emod_of_dvd e (dvd_refl _)]
  · intro _
    have h2 : (2 : Nat) ≤ a.prime := hp.two_le
    have hself : ((a.prime : Int) - 1) % ((a.prime : Int) - 1) = 0 := Int.emod_self
    rw [fpow, hself]
    show (⟨powMod a.value 0 a.prime, a.prime⟩ : ModularFieldInteger) = ⟨1, a.prime⟩
    have hone : powMod a.value 0 a.prime = 1 := by
      show 1 % a.prime = 1
      exact Nat.mod_eq_of_lt (by omega)
    rw [hone]

/-- Witness for C8 over `F_5` at `a = 2`: `2 ** 7 == 2 ** (7 % 4)` and
`2 ** 4 == one`. -/
theorem C8_fpow_reduction_and_fermat_witness :
    fpow ⟨2, 5⟩ 7 = fpow ⟨2, 5⟩ (7 % (((5 : Nat) : Int) - 1)) ∧
      fpow ⟨2, 5⟩ (((5 : Nat) : Int) - 1) = ⟨1, 5⟩ :=
  ⟨(C8_fpow_reduction_and_fermat ⟨2, 5⟩ (by norm_num)).1 7,
    (C8_fpow_reduction_and_fermat ⟨2, 5⟩ (by norm_num)).2 (by decide)⟩

/-! ### Claim C9 (constructor totality and the `0 ≤ value < prime` invariant) -/

/-- C9: with a prime modulus the constructor accepts every integer value
(negative ones included), never fails on account of the value, and stores
it reduced, so `value < prime` holds for every constructed element; and
each arithmetic operation preserves that invariant (and the prime). -/
theorem C9_value_invariant :
    (∀ (v : Int) (p : Nat), Nat.Prime p →
      ∃ x, mkModularFieldInteger v p = .ok x ∧ x.value < x.prime ∧ x.prime = p) ∧
    (∀ a b r : ModularFieldInteger, Nat.Prime a.prime →
      fadd a b = .ok r ∨ fsub a b = .ok r ∨ fmul a b = .ok r ∨ fdiv a b = .ok r →
      r.value < r.prime ∧ r.prime = a.prime) ∧
    (∀ (a : ModularFieldInteger) (e : Int), Nat.Prime a.prime →
      (fpow a e).value < (fpow a e).prime ∧ (fpow a e).prime = a.prime) ∧
    (∀ (c : Nat) (a : ModularFieldInteger), Nat.Prime a.prime →
      (fsmul c a).value < (fsmul c a).prime ∧ (fsmul c a).prime = a.prime) := by
  refine ⟨?_, ?_, ?_, ?_⟩
  · intro v p hp
    refine ⟨⟨(v % (p : Int)).toNat, p⟩, ?_, ?_, rfl⟩
    · rw [mkModularFieldInteger, if_pos hp]
    · show (v % (p : Int)).toNat < p
      exact toNat_emod_lt v p hp.pos
  · intro a b r hp hops
    have hpos : 0 < a.prime := hp.pos
    rcases hops with h | h | h | h
    · rw [fadd] at h
      by_cases hab : a.prime = b.prime
      · rw [if_neg (by omega)] at h
        cases h
        exact ⟨Nat.mod_lt _ hpos, rfl⟩
      · rw [if_pos hab] at h
        exact Except.noConfusion h
    · rw [fsub] at h
      by_cases hab : a.prime = b.prime
      · rw [if_neg (by omega)] at h
        cases h
        exact ⟨toNat_emod_lt _ _ hpos, rfl⟩
      · rw [if_pos hab] at h
        exact Except.noConfusion h
    · rw [fmul] at h
      by_cases hab : a.prime = b.prime
      · rw [if_neg (by omega)] at h
        cases h
        exact ⟨Nat.mod_lt _ hpos, rfl⟩
      · rw [if_pos hab] at h
        exact Except.noConfusion h
    · rw [fdiv] at h
      by_cases hab : a.prime = b.prime
      · rw [if_neg (by omega)] at h
        cases h
        exact ⟨Nat.mod_lt _ hpos, rfl⟩
      · rw [if_pos hab] at h
        exact Except.noConfusion h
  · intro a e hp
    exact ⟨powMod_lt _ _ _ hp.pos, rfl⟩
  · intro c a hp
    exact ⟨Nat.mod_lt _ hp.pos, rfl⟩

/-- Witness for C9: constructing `F_5(-7)` stores `3 < 5`, and one sample
operation (`F_5(3) + F_5(4) = F_5(2)`) keeps the invariant. -/
theorem C9_value_invariant_witness :
    (∃ x, mkModularFieldInteger (-7) 5 = .ok x ∧ x.value < x.prime ∧ x.prime = 5) ∧
      ((⟨2, 5⟩ : ModularFieldInteger).value < (⟨2, 5⟩ : ModularFieldInteger).prime ∧
        (⟨2, 5⟩ : ModularFieldInteger).prime = (⟨3, 5⟩ : ModularFieldInteger).prime) :=
  ⟨C9_value_invariant.1 (-7) 5 (by norm_num),
    C9_value_invariant.2.1 ⟨3, 5⟩ ⟨4, 5⟩ ⟨2, 5⟩ (by decide) (Or.inl rfl)⟩

/-! ### Claim C2 (low-s normalization threshold) -/

set_option maxRecDepth 40000 in
/-- C2 (failing-input evaluation): the low-s comparison on line 388 is
against `2^255` (the exact double produced by the float division
`G_ORDER / 2`), not against `n / 2`.  At nonce `k = 1`, `secret = 1`,
`z = 2^255 - G_X`, the signing equations give `s = 2^255` before
normalization; the branch `s > 2^255` does not fire, and the returned `s`
is `2^255`, which exceeds `n / 2` — the claim that the comparison is
against `n / 2` and that every produced `s` satisfies `s ≤ n / 2` fails
on this value. -/
theorem C2_low_s_threshold_is_two_pow_255 :
    signWithNonce 1 (2 ^ 255 - G_X) 1 = .ok ⟨G_X, 2 ^ 255⟩ ∧ G_ORDER / 2 < 2 ^ 255 := by
  constructor
  · rfl
  · decide

/-! ### Field operations seen in `ZMod p` (towards claims C7 and C6) -/

theorem fadd_pp {p : Nat} (v1 v2 : Nat) :
    fadd ⟨v1, p⟩ ⟨v2, p⟩ = .ok ⟨(v1 + v2) % p, p⟩ := by
  rw [fadd, if_neg (fun h => h rfl)]

theorem fsub_pp {p : Nat} (v1 v2 : Nat) :
    fsub ⟨v1, p⟩ ⟨v2, p⟩ = .ok ⟨(((v1 : Int) - (v2 : Int)) % (p : Int)).toNat, p⟩ := by
  rw [fsub, if_neg (fun h => h rfl)]

theorem fmul_pp {p : Nat} (v1 v2 : Nat) :
    fmul ⟨v1, p⟩ ⟨v2, p⟩ = .ok ⟨v1 * v2 % p, p⟩ := by
  rw [fmul, if_neg (fun h => h rfl)]

theorem fdiv_pp {p : Nat} (v1 v2 : Nat) :
    fdiv ⟨v1, p⟩ ⟨v2, p⟩ = .ok ⟨v1 * powMod v2 (p - 2) p % p, p⟩ := by
  rw [fdiv, if_neg (fun h => h rfl)]

theorem cast_mod_self {p : Nat} (v : Nat) : ((v % p : Nat) : ZMod p) = (v : ZMod p) :=
  ZMod.natCast_mod v p

theorem cast_add_mod {p : Nat} (v1 v2 : Nat) :
    (((v1 + v2) % p : Nat) : ZMod p) = (v1 : ZMod p) + (v2 : ZMod p) := by
  rw [ZMod.natCast_mod, Nat.cast_add]

theorem cast_mul_mod {p : Nat} (v1 v2 : Nat) :
    ((v1 * v2 % p : Nat) : ZMod p) = (v1 : ZMod p) * (v2 : ZMod p) := by
  rw [ZMod.natCast_mod, Nat.cast_mul]

theorem cast_sub_emod {p : Nat} (hp : 0 < p) (v1 v2 : Nat) :
    (((((v1 : Int) - (v2 : Int)) % (p : Int)).toNat : Nat) : ZMod p) =
      (v1 : ZMod p) - (v2 : ZMod p) := by
  have hnn : 0 ≤ ((v1 : Int) - (v2 : Int)) % (p : Int) :=
    Int.emod_nonneg _ (by omega : (p : Int) ≠ 0)
  have h1 : ((((((v1 : Int) - (v2 : Int)) % (p : Int)).toNat : Nat)) : ZMod p) =
      ((((v1 : Int) - (v2 : Int)) % (p : Int) : Int) : ZMod p) := by
    rw [← Int.cast_natCast, Int.toNat_of_nonneg hnn]
  rw [h1, ZMod.intCast_mod]
  push_cast
  ring

theorem cast_powMod {p : Nat} (hp : 0 < p) (v e : Nat) :
    ((powMod v e p : Nat) : ZMod p) = (v : ZMod p) ^ e := by
  rw [powMod_eq v e p hp, ZMod.natCast_mod, Nat.cast_pow]

theorem zmod_pow_card_sub_two {p : Nat} (hp : Nat.Prime p) (hp2 : 2 < p) (z : ZMod p) :
    z ^ (p - 2) = z⁻¹ := by
  haveI : Fact (Nat.Prime p) := ⟨hp⟩
  by_cases hz : z = 0
  · subst hz
    rw [inv_zero]
    exact zero_pow (by omega)
  · have h1 : z ^ (p - 2) * z = 1 := by
      rw [← pow_succ]
      have h2 : p - 2 + 1 = p - 1 := by omega
      rw [h2]
      exact ZMod.pow_card_sub_one_eq_one hz
    exact eq_inv_of_mul_eq_one_left h1

theorem cast_fdiv_val {p : Nat} (hp : Nat.Prime p) (hp2 : 2 < p) (v1 v2 : Nat) :
    ((v1 * powMod v2 (p - 2) p % p : Nat) : ZMod p) = (v1 : ZMod p) * (v2 : ZMod p)⁻¹ := by
  rw [cast_mul_mod, cast_powMod hp.pos, zmod_pow_card_sub_two hp hp2]

theorem prime_gt_three_ge_five {p : Nat} (hp : Nat.Prime p) (hp3 : 3 < p) : 5 ≤ p := by
  rcases Nat.lt_or_ge p 5 with h | h
  · interval_cases p
    · exact absurd hp (by decide)
  · exact h

theorem fpow_two_pp {p : Nat} (hp : Nat.Prime p) (hp3 : 3 < p) (v : Nat) :
    fpow ⟨v, p⟩ 2 = ⟨powMod v 2 p, p⟩ := by
  have h5 := prime_gt_three_ge_five hp hp3
  rw [fpow]
  have he : ((2 : Int) % ((p : Nat) - (1 : Int))).toNat = 2 := by
    rw [Int.emod_eq_of_lt (by omega) (by omega)]
    rfl
  rw [show ((⟨v, p⟩ : ModularFieldInteger).prime : Int) = (p : Int) from rfl]
  rw [he]

theorem fpow_three_pp {p : Nat} (hp : Nat.Prime p) (hp3 : 3 < p) (v : Nat) :
    fpow ⟨v, p⟩ 3 = ⟨powMod v 3 p, p⟩ := by
  have h5 := prime_gt_three_ge_five hp hp3
  rw [fpow]
  have he : ((3 : Int) % ((p : Nat) - (1 : Int))).toNat = 3 := by
    rw [Int.emod_eq_of_lt (by omega) (by omega)]
    rfl
  rw [show ((⟨v, p⟩ : ModularFieldInteger).prime : Int) = (p : Int) from rfl]
  rw [he]

theorem mfi_eq_iff_cast {p : Nat} (v1 v2 : Nat) (h1 : v1 < p) (h2 : v2 < p) :
    ((⟨v1, p⟩ : ModularFieldInteger) = ⟨v2, p⟩) ↔ (v1 : ZMod p) = (v2 : ZMod p) := by
  constructor
  · intro h
    cases h
    rfl
  · intro h
    have := congrArg ZMod.val h
    rw [ZMod.val_cast_of_lt h1, ZMod.val_cast_of_lt h2] at this
    cases this
    rfl

theorem fsmul_pp {p : Nat} (c v : Nat) :
    fsmul c ⟨v, p⟩ = ⟨v * c % p, p⟩ := rfl

theorem pure_decide_eq_ok_true_iff (E : Prop) [Decidable E] :
    ((pure (decide E) : Except PyErr Bool) = .ok true) ↔ E := by
  constructor
  · intro h
    have hd : decide E = true := by
      injection h
    exact of_decide_eq_true hd
  · intro h
    rw [decide_eq_true h]
    rfl

/-- The embedded curve-membership check agrees with Mathlib's Weierstrass
equation over `ZMod p` (for `p > 3`, where the `p - 1` exponent reduction
leaves the square and cube intact). -/
theorem isOnCurve_iff_equation {p : Nat} (hp : Nat.Prime p) (hp3 : 3 < p)
    (x y a b : Nat) :
    (is_on_elliptic_curve ⟨x, p⟩ ⟨y, p⟩ ⟨a, p⟩ ⟨b, p⟩ = .ok true) ↔
      (toWeierstrass p a b).Equation (x : ZMod p) (y : ZMod p) := by
  rw [is_on_elliptic_curve, fmul_pp, okBind, fpow_three_pp hp hp3, fadd_pp, okBind,
    fadd_pp, okBind, fpow_two_pp hp hp3, pure_decide_eq_ok_true_iff,
    mfi_eq_iff_cast _ _ (powMod_lt _ _ _ hp.pos) (Nat.mod_lt _ hp.pos),
    cast_add_mod, cast_add_mod, cast_powMod hp.pos, cast_powMod hp.pos, cast_mul_mod,
    WeierstrassCurve.Affine.equation_iff]
  simp only [toWeierstrass]
  constructor <;> intro h <;> linear_combination h

theorem cast_ne_of_ne {p : Nat} {v1 v2 : Nat} (h1 : v1 < p) (h2 : v2 < p)
    (hne : v1 ≠ v2) : (v1 : ZMod p) ≠ (v2 : ZMod p) := by
  intro h
  have := congrArg ZMod.val h
  rw [ZMod.val_cast_of_lt h1, ZMod.val_cast_of_lt h2] at this
  exact hne this

/-- Chord case of `__add__`: for distinct `x` coordinates on a curve over
a prime `p > 3`, the computed point passes the constructor's curve check,
so the addition returns a finite point. -/
theorem ecAdd_chord {p : Nat} (hp : Nat.Prime p) (hp3 : 3 < p)
    (x1 y1 x2 y2 a b : Nat)
    (hx1 : x1 < p) (hx2 : x2 < p)
    (hxne : x1 ≠ x2)
    (h1 : is_on_elliptic_curve ⟨x1, p⟩ ⟨y1, p⟩ ⟨a, p⟩ ⟨b, p⟩ = .ok true)
    (h2 : is_on_elliptic_curve ⟨x2, p⟩ ⟨y2, p⟩ ⟨a, p⟩ ⟨b, p⟩ = .ok true) :
    ∃ x3 y3 : ModularFieldInteger,
      ecAdd ⟨some (⟨x1, p⟩, ⟨y1, p⟩), ⟨a, p⟩, ⟨b, p⟩⟩
          ⟨some (⟨x2, p⟩, ⟨y2, p⟩), ⟨a, p⟩, ⟨b, p⟩⟩ =
        .ok ⟨some (x3, y3), ⟨a, p⟩, ⟨b, p⟩⟩ := by
  haveI : Fact (Nat.Prime p) := ⟨hp⟩
  have hp2 : 2 < p := by omega
  have hzx : (x1 : ZMod p) ≠ (x2 : ZMod p) := cast_ne_of_ne hx1 hx2 hxne
  set W := toWeierstrass p a b with hW
  have hE1 : W.Equation (x1 : ZMod p) (y1 : ZMod p) :=
    (isOnCurve_iff_equation hp hp3 x1 y1 a b).mp h1
  have hE2 : W.Equation (x2 : ZMod p) (y2 : ZMod p) :=
    (isOnCurve_iff_equation hp hp3 x2 y2 a b).mp h2
  have hxy : (x1 : ZMod p) = (x2 : ZMod p) → (y1 : ZMod p) ≠ W.negY x2 y2 :=
    fun h => absurd h hzx
  have hAdd := WeierstrassCurve.Affine.equation_add hE1 hE2 hxy
  set L := W.slope (x1 : ZMod p) (x2 : ZMod p) (y1 : ZMod p) (y2 : ZMod p) with hL
  -- the concrete values computed by the embedded code
  set DY : Nat := (((y2 : Int) - (y1 : Int)) % (p : Int)).toNat with hDY
  set DX : Nat := (((x2 : Int) - (x1 : Int)) % (p : Int)).toNat with hDX
  set S : Nat := DY * powMod DX (p - 2) p % p with hS
  set T : Nat := (((powMod S 2 p : Int) - (x1 : Int)) % (p : Int)).toNat with hT
  set X3 : Nat := (((T : Int) - (x2 : Int)) % (p : Int)).toNat with hX3
  set U : Nat := (((x1 : Int) - (X3 : Int)) % (p : Int)).toNat with hU
  set SU : Nat := S * U % p with hSU
  set Y3 : Nat := (((SU : Int) - (y1 : Int)) % (p : Int)).toNat with hY3
  have hcastS : (S : ZMod p) = L := by
    rw [hS, cast_fdiv_val hp hp2, hDY, hDX, cast_sub_emod hp.pos, cast_sub_emod hp.pos,
      hL, WeierstrassCurve.Affine.slope_of_X_ne hzx, div_eq_mul_inv,
      show (y1 : ZMod p) - (y2 : ZMod p) = -((y2 : ZMod p) - (y1 : ZMod p)) from by ring,
      show (x1 : ZMod p) - (x2 : ZMod p) = -((x2 : ZMod p) - (x1 : ZMod p)) from by ring,
      inv_neg, neg_mul_neg]
  have hcastX3 : (X3 : ZMod p) = W.addX (x1 : ZMod p) (x2 : ZMod p) L := by
    rw [hX3, cast_sub_emod hp.pos, hT, cast_sub_emod hp.pos, cast_powMod hp.pos, hcastS]
    simp only [WeierstrassCurve.Affine.addX, hW, toWeierstrass]
    ring
  have hcastY3 : (Y3 : ZMod p) =
      W.addY (x1 : ZMod p) (x2 : ZMod p) (y1 : ZMod p) L := by
    rw [hY3, cast_sub_emod hp.pos, hSU, cast_mul_mod, hU, cast_sub_emod hp.pos,
      hcastX3, hcastS]
    simp only [WeierstrassCurve.Affine.addY, WeierstrassCurve.Affine.negAddY,
      WeierstrassCurve.Affine.negY, hW, toWeierstrass]
    ring
  have hEq3 : W.Equation (X3 : ZMod p) (Y3 : ZMod p) := by
    rw [hcastX3, hcastY3]
    exact hAdd
  have hoc : is_on_elliptic_curve ⟨X3, p⟩ ⟨Y3, p⟩ ⟨a, p⟩ ⟨b, p⟩ = .ok true :=
    (isOnCurve_iff_equation hp hp3 X3 Y3 a b).mpr hEq3
  refine ⟨⟨X3, p⟩, ⟨Y3, p⟩, ?_⟩
  simp only [ecAdd]
  rw [if_neg (by simp), if_neg (by simp [hxne]), if_pos (by simp [hxne])]
  rw [fsub_pp, okBind, fsub_pp, okBind, fdiv_pp, okBind, fpow_two_pp hp hp3,
    fsub_pp, okBind, fsub_pp, okBind, fsub_pp, okBind, fmul_pp, okBind, fsub_pp, okBind]
  rw [mkEllipcCurvePoint, hoc, okBind]
  rfl

/-- Tangent case of `__add__`: doubling a point with `y ≠ 0` on a curve
over a prime `p > 3` returns a finite point. -/
theorem ecAdd_tangent {p : Nat} (hp : Nat.Prime p) (hp3 : 3 < p)
    (x1 y1 a b : Nat)
    (hy1 : y1 < p) (hy0 : y1 ≠ 0)
    (h1 : is_on_elliptic_curve ⟨x1, p⟩ ⟨y1, p⟩ ⟨a, p⟩ ⟨b, p⟩ = .ok true) :
    ∃ x3 y3 : ModularFieldInteger,
      ecAdd ⟨some (⟨x1, p⟩, ⟨y1, p⟩), ⟨a, p⟩, ⟨b, p⟩⟩
          ⟨some (⟨x1, p⟩, ⟨y1, p⟩), ⟨a, p⟩, ⟨b, p⟩⟩ =
        .ok ⟨some (x3, y3), ⟨a, p⟩, ⟨b, p⟩⟩ := by
  haveI : Fact (Nat.Prime p) := ⟨hp⟩
  have hp2 : 2 < p := by omega
  have hzy : (y1 : ZMod p) ≠ 0 := by
    have := cast_ne_of_ne hy1 hp.pos hy0
    simpa using this
  have htwo : (2 : ZMod p) ≠ 0 := by
    haveI : NeZero p := ⟨by omega⟩
    have h5 := prime_gt_three_ge_five hp hp3
    intro h
    have h2 : ((2 : Nat) : ZMod p) = 0 := by exact_mod_cast h
    have hdvd := (ZMod.natCast_zmod_eq_zero_iff_dvd 2 p).mp h2
    have := Nat.le_of_dvd (by norm_num) hdvd
    omega
  set W := toWeierstrass p a b with hW
  have hE1 : W.Equation (x1 : ZMod p) (y1 : ZMod p) :=
    (isOnCurve_iff_equation hp hp3 x1 y1 a b).mp h1
  have hyneg : (y1 : ZMod p) ≠ W.negY (x1 : ZMod p) (y1 : ZMod p) := by
    simp only [WeierstrassCurve.Affine.negY, hW, toWeierstrass]
    intro h
    have h2y : (2 : ZMod p) * (y1 : ZMod p) = 0 := by linear_combination h
    rcases mul_eq_zero.mp h2y with h | h
    · exact htwo h
    · exact hzy h
  have hxy : (x1 : ZMod p) = (x1 : ZMod p) → (y1 : ZMod p) ≠ W.negY (x1 : ZMod p) (y1 : ZMod p) :=
    fun _ => hyneg
  have hAdd := WeierstrassCurve.Affine.equation_add hE1 hE1 hxy
  set L := W.slope (x1 : ZMod p) (x1 : ZMod p) (y1 : ZMod p) (y1 : ZMod p) with hL
  set NUM : Nat := (powMod x1 2 p * 3 % p + a) % p with hNUM
  set DEN : Nat := y1 * 2 % p with hDEN
  set S : Nat := NUM * powMod DEN (p - 2) p % p with hS
  set X3 : Nat := (((powMod S 2 p : Int) - ((x1 * 2 % p : Nat) : Int)) % (p : Int)).toNat with hX3
  set U : Nat := (((x1 : Int) - (X3 : Int)) % (p : Int)).toNat with hU
  set SU : Nat := S * U % p with hSU
  set Y3 : Nat := (((SU : Int) - (y1 : Int)) % (p : Int)).toNat with hY3
  have hcastS : (S : ZMod p) = L := by
    rw [hS, cast_fdiv_val hp hp2, hNUM, cast_add_mod, cast_mul_mod, cast_powMod hp.pos,
      hDEN, cast_mul_mod, hL, WeierstrassCurve.Affine.slope_of_Y_ne rfl hyneg]
    simp only [WeierstrassCurve.Affine.negY, hW, toWeierstrass]
    rw [div_eq_mul_inv]
    have hden : (y1 : ZMod p) - (-(y1 : ZMod p) - 0 * (x1 : ZMod p) - 0) =
        (y1 : ZMod p) * (2 : Nat) := by push_cast; ring
    rw [hden]
    congr 1
    push_cast
    ring
  have hcastX3 : (X3 : ZMod p) = W.addX (x1 : ZMod p) (x1 : ZMod p) L := by
    rw [hX3, cast_sub_emod hp.pos, cast_powMod hp.pos, hcastS, cast_mul_mod]
    simp only [WeierstrassCurve.Affine.addX, hW, toWeierstrass]
    push_cast
    ring
  have hcastY3 : (Y3 : ZMod p) =
      W.addY (x1 : ZMod p) (x1 : ZMod p) (y1 : ZMod p) L := by
    rw [hY3, cast_sub_emod hp.pos, hSU, cast_mul_mod, hU, cast_sub_emod hp.pos,
      hcastX3, hcastS]
    simp only [WeierstrassCurve.Affine.addY, WeierstrassCurve.Affine.negAddY,
      WeierstrassCurve.Affine.negY, hW, toWeierstrass]
    ring
  have hEq3 : W.Equation (X3 : ZMod p) (Y3 : ZMod p) := by
    rw [hcastX3, hcastY3]
    exact hAdd
  have hoc : is_on_elliptic_curve ⟨X3, p⟩ ⟨Y3, p⟩ ⟨a, p⟩ ⟨b, p⟩ = .ok true :=
    (isOnCurve_iff_equation hp hp3 X3 Y3 a b).mpr hEq3
  refine ⟨⟨X3, p⟩, ⟨Y3, p⟩, ?_⟩
  simp only [ecAdd]
  rw [if_neg (by simp), if_neg (by simp), if_neg (by simp), if_neg (by simp [fsmul_pp, hy0]),
    if_pos trivial]
  rw [fpow_two_pp hp hp3, fsmul_pp, fadd_pp, okBind, fsmul_pp, fdiv_pp, okBind,
    fpow_two_pp hp hp3, fsmul_pp, fsub_pp, okBind, fsub_pp, okBind, fmul_pp, okBind,
    fsub_pp, okBind]
  rw [mkEllipcCurvePoint, hoc, okBind]
  rfl

/-! ### Claim C7 (the addition law's case analysis) -/

/-- C7 (counterexample): over `F_3` the claim fails.  The pair
`P = Q = (0, 1)` on `y² = x³ + 1` over `F_3` passes the constructor's
curve check, is not a vertical configuration (`P == Q` with `y = 1 ≠ 0`),
yet `P + P` raises `ValueError` instead of returning a finite point: the
`__pow__` exponent reduction modulo `p - 1 = 2` turns the squares in the
tangent formula into zeroth powers, and the computed point fails curve
validation. -/
theorem C7_counterexample_p3 :
    mkEllipcCurvePoint (some ⟨0, 3⟩) (some ⟨1, 3⟩) ⟨0, 3⟩ ⟨1, 3⟩ =
        .ok ⟨some (⟨0, 3⟩, ⟨1, 3⟩), ⟨0, 3⟩, ⟨1, 3⟩⟩ ∧
      (⟨1, 3⟩ : ModularFieldInteger) ≠ fsmul 0 ⟨0, 3⟩ ∧
      ecAdd ⟨some (⟨0, 3⟩, ⟨1, 3⟩), ⟨0, 3⟩, ⟨1, 3⟩⟩ ⟨some (⟨0, 3⟩, ⟨1, 3⟩), ⟨0, 3⟩, ⟨1, 3⟩⟩ =
        .error .valueErr :=
  ⟨rfl, by decide, rfl⟩

/-- C7 (amended: restricted to prime fields with `p > 3`, where the
`__pow__` exponent reduction modulo `p - 1` leaves squares and cubes
intact): for two constructor-valid non-infinity points on the same curve,
`__add__` returns the point at infinity exactly in the two vertical cases
— equal `x` with different `y`, or `P == Q` with `y = 0` — and in every
other case returns a finite point (the chord/tangent formulas pass the
result constructor's curve validation). -/
theorem C7_add_infinity_iff (p : Nat) (hp : Nat.Prime p) (hp3 : 3 < p)
    (x1 y1 x2 y2 a b : Nat) (hx1 : x1 < p) (hy1 : y1 < p) (hx2 : x2 < p) (hy2 : y2 < p)
    (h1 : is_on_elliptic_curve ⟨x1, p⟩ ⟨y1, p⟩ ⟨a, p⟩ ⟨b, p⟩ = .ok true)
    (h2 : is_on_elliptic_curve ⟨x2, p⟩ ⟨y2, p⟩ ⟨a, p⟩ ⟨b, p⟩ = .ok true) :
    (ecAdd ⟨some (⟨x1, p⟩, ⟨y1, p⟩), ⟨a, p⟩, ⟨b, p⟩⟩
          ⟨some (⟨x2, p⟩, ⟨y2, p⟩), ⟨a, p⟩, ⟨b, p⟩⟩ =
        .ok ⟨none, ⟨a, p⟩, ⟨b, p⟩⟩ ↔
      (x1 = x2 ∧ y1 ≠ y2) ∨ (x1 = x2 ∧ y1 = y2 ∧ y1 = 0)) ∧
    (¬((x1 = x2 ∧ y1 ≠ y2) ∨ (x1 = x2 ∧ y1 = y2 ∧ y1 = 0)) →
      ∃ x3 y3 : ModularFieldInteger,
        ecAdd ⟨some (⟨x1, p⟩, ⟨y1, p⟩), ⟨a, p⟩, ⟨b, p⟩⟩
            ⟨some (⟨x2, p⟩, ⟨y2, p⟩), ⟨a, p⟩, ⟨b, p⟩⟩ =
          .ok ⟨some (x3, y3), ⟨a, p⟩, ⟨b, p⟩⟩) := by
  by_cases hxx : x1 = x2
  · subst hxx
    by_cases hyy : y1 = y2
    · subst hyy
      by_cases hy0 : y1 = 0
      · subst hy0
        have hres : ecAdd ⟨some (⟨x1, p⟩, ⟨0, p⟩), ⟨a, p⟩, ⟨b, p⟩⟩
            ⟨some (⟨x1, p⟩, ⟨0, p⟩), ⟨a, p⟩, ⟨b, p⟩⟩ = .ok ⟨none, ⟨a, p⟩, ⟨b, p⟩⟩ := by
          simp only [ecAdd]
          rw [if_neg (by simp), if_neg (by simp), if_neg (by simp),
            if_pos ⟨trivial, by simp [fsmul_pp]⟩]
        exact ⟨iff_of_true hres (Or.inr ⟨rfl, rfl, rfl⟩),
          fun hc => absurd (Or.inr ⟨rfl, rfl, rfl⟩) hc⟩
      · obtain ⟨x3, y3, hres⟩ := ecAdd_tangent hp hp3 x1 y1 a b hy1 hy0 h1
        refine ⟨?_, fun _ => ⟨x3, y3, hres⟩⟩
        rw [hres]
        constructor
        · intro h
          exact absurd h (by simp)
        · rintro (⟨-, hne⟩ | ⟨-, -, h0⟩)
          · exact absurd rfl hne
          · exact absurd h0 hy0
    · have hres : ecAdd ⟨some (⟨x1, p⟩, ⟨y1, p⟩), ⟨a, p⟩, ⟨b, p⟩⟩
          ⟨some (⟨x1, p⟩, ⟨y2, p⟩), ⟨a, p⟩, ⟨b, p⟩⟩ = .ok ⟨none, ⟨a, p⟩, ⟨b, p⟩⟩ := by
        simp only [ecAdd]
        rw [if_neg (by simp), if_pos ⟨trivial, by simp [hyy]⟩]
      exact ⟨iff_of_true hres (Or.inl ⟨rfl, hyy⟩),
        fun hc => absurd (Or.inl ⟨rfl, hyy⟩) hc⟩
  · obtain ⟨x3, y3, hres⟩ := ecAdd_chord hp hp3 x1 y1 x2 y2 a b hx1 hx2 hxx h1 h2
    refine ⟨?_, fun _ => ⟨x3, y3, hres⟩⟩
    rw [hres]
    constructor
    · intro h
      exact absurd h (by simp)
    · rintro (⟨he, -⟩ | ⟨he, -⟩) <;> exact absurd he hxx

/-- Witness for C7 over `F_5` on `y² = x³ + 3` with the vertical pair
`P = (1, 2)`, `Q = (1, 3)`. -/
theorem C7_add_infinity_iff_witness :
    (ecAdd ⟨some (⟨1, 5⟩, ⟨2, 5⟩), ⟨0, 5⟩, ⟨3, 5⟩⟩
          ⟨some (⟨1, 5⟩, ⟨3, 5⟩), ⟨0, 5⟩, ⟨3, 5⟩⟩ =
        .ok ⟨none, ⟨0, 5⟩, ⟨3, 5⟩⟩ ↔
      ((1 : Nat) = 1 ∧ (2 : Nat) ≠ 3) ∨ ((1 : Nat) = 1 ∧ (2 : Nat) = 3 ∧ (2 : Nat) = 0)) ∧
    (¬(((1 : Nat) = 1 ∧ (2 : Nat) ≠ 3) ∨ ((1 : Nat) = 1 ∧ (2 : Nat) = 3 ∧ (2 : Nat) = 0)) →
      ∃ x3 y3 : ModularFieldInteger,
        ecAdd ⟨some (⟨1, 5⟩, ⟨2, 5⟩), ⟨0, 5⟩, ⟨3, 5⟩⟩
            ⟨some (⟨1, 5⟩, ⟨3, 5⟩), ⟨0, 5⟩, ⟨3, 5⟩⟩ =
          .ok ⟨some (x3, y3), ⟨0, 5⟩, ⟨3, 5⟩⟩) :=
  C7_add_infinity_iff 5 (by norm_num) (by norm_num) 1 2 1 3 0 3
    (by norm_num) (by norm_num) (by norm_num) (by norm_num) rfl rfl

/-! ### Claim C6 (SEC round trip) -/

theorem A_eq : A = (⟨EC_A, EC_PRIME⟩ : ModularFieldInteger) := rfl

theorem B_eq : B = (⟨EC_B, EC_PRIME⟩ : ModularFieldInteger) := rfl

theorem EC_PRIME_gt_three : 3 < EC_PRIME := by decide

theorem EC_PRIME_mod4 : EC_PRIME % 4 = 3 := by decide

theorem EC_PRIME_lt_2_256 : EC_PRIME < 2 ^ 256 := by decide

/-- `S256Integer.sqrt` computes `pow(value, (p + 1) // 4, p)`. -/
theorem s256Sqrt_eq (v : Nat) :
    s256Sqrt ⟨v, EC_PRIME⟩ = ⟨powMod v ((EC_PRIME + 1) / 4) EC_PRIME, EC_PRIME⟩ := by
  rw [s256Sqrt, fpow]
  have h1 : ((EC_PRIME : Int) + 1) / 4 = (((EC_PRIME + 1) / 4 : Nat) : Int) := by
    omega
  have h2 : ((EC_PRIME + 1) / 4 : Nat) < EC_PRIME - 1 := by decide
  have h3 : ((((EC_PRIME + 1) / 4 : Nat) : Int) % (((⟨v, EC_PRIME⟩ :
      ModularFieldInteger).prime : Int) - 1)).toNat = ((EC_PRIME + 1) / 4 : Nat) := by
    rw [show ((⟨v, EC_PRIME⟩ : ModularFieldInteger).prime : Int) = (EC_PRIME : Int) from rfl,
      Int.emod_eq_of_lt (Int.natCast_nonneg _) (by omega), Int.toNat_natCast]
  rw [h1, h3]

/-- Over a prime `p ≡ 3 (mod 4)`, the `x^((p+1)/4)` square root of a
quadratic residue `y²` is `y` or `p - y`. -/
theorem sqrt_two_roots {p : Nat} (hp : Nat.Prime p) (hp3 : 3 < p) (hp4 : p % 4 = 3)
    (yv ysq : Nat) (hy : yv < p) (hcast : (ysq : ZMod p) = (yv : ZMod p) ^ 2) :
    powMod ysq ((p + 1) / 4) p = yv ∨ powMod ysq ((p + 1) / 4) p = p - yv := by
  haveI : Fact (Nat.Prime p) := ⟨hp⟩
  have hwlt : powMod ysq ((p + 1) / 4) p < p := powMod_lt _ _ _ hp.pos
  have hcw : ((powMod ysq ((p + 1) / 4) p : Nat) : ZMod p) =
      (ysq : ZMod p) ^ ((p + 1) / 4) := cast_powMod hp.pos _ _
  by_cases hy0 : (yv : ZMod p) = 0
  · have hyz : yv = 0 := by
      have := congrArg ZMod.val hy0
      rwa [ZMod.val_cast_of_lt hy, ZMod.val_zero] at this
    subst hyz
    left
    have hz : ((powMod ysq ((p + 1) / 4) p : Nat) : ZMod p) = 0 := by
      rw [hcw, hcast, hy0]
      rw [← pow_mul]
      exact zero_pow (by omega)
    have := congrArg ZMod.val hz
    rwa [ZMod.val_cast_of_lt hwlt, ZMod.val_zero] at this
  · have hyvne : yv ≠ 0 := by
      intro h
      subst h
      exact hy0 (by push_cast; rfl)
    have hsq : ((powMod ysq ((p + 1) / 4) p : Nat) : ZMod p) ^ 2 = (yv : ZMod p) ^ 2 := by
      rw [hcw, ← pow_mul, hcast, ← pow_mul]
      have he1 : (p + 1) / 4 * 2 = (p + 1) / 2 := by omega
      rw [he1]
      have he2 : 2 * ((p + 1) / 2) = p - 1 + 2 := by omega
      rw [he2, pow_add, ZMod.pow_card_sub_one_eq_one hy0, one_mul]
    have hfac : (((powMod ysq ((p + 1) / 4) p : Nat) : ZMod p) - (yv : ZMod p)) *
        (((powMod ysq ((p + 1) / 4) p : Nat) : ZMod p) + (yv : ZMod p)) = 0 := by
      linear_combination hsq
    rcases mul_eq_zero.mp hfac with h | h
    · left
      have hc : ((powMod ysq ((p + 1) / 4) p : Nat) : ZMod p) = (yv : ZMod p) :=
        sub_eq_zero.mp h
      have := congrArg ZMod.val hc
      rwa [ZMod.val_cast_of_lt hwlt, ZMod.val_cast_of_lt hy] at this
    · right
      have hc : ((powMod ysq ((p + 1) / 4) p : Nat) : ZMod p) = -(yv : ZMod p) := by
        linear_combination h
      have hc2 : ((p - yv : Nat) : ZMod p) = -(yv : ZMod p) := by
        rw [Nat.cast_sub hy.le, ZMod.natCast_self]
        ring
      have hlt2 : p - yv < p := by omega
      have := congrArg ZMod.val (hc.trans hc2.symm)
      rwa [ZMod.val_cast_of_lt hwlt, ZMod.val_cast_of_lt hlt2] at this

theorem sec_uncompressed (xv yv : Nat) (hx : xv < EC_PRIME) (hy : yv < EC_PRIME) :
    sec ⟨some (⟨xv, EC_PRIME⟩, ⟨yv, EC_PRIME⟩), A, B⟩ false =
      .ok (4 :: (natToBytesBE 32 xv ++ natToBytesBE 32 yv)) := by
  have hx2 : xv < 2 ^ 256 := lt_trans hx EC_PRIME_lt_2_256
  have hy2 : yv < 2 ^ 256 := lt_trans hy EC_PRIME_lt_2_256
  simp only [sec]
  rw [show (toBytes32 (⟨xv, EC_PRIME⟩ : ModularFieldInteger).value) =
      .ok (natToBytesBE 32 xv) from by rw [toBytes32, if_pos hx2], okBind,
    show (toBytes32 (⟨yv, EC_PRIME⟩ : ModularFieldInteger).value) =
      .ok (natToBytesBE 32 yv) from by rw [toBytes32, if_pos hy2], okBind]
  rfl

theorem sec_compressed (xv yv : Nat) (hx : xv < EC_PRIME) :
    sec ⟨some (⟨xv, EC_PRIME⟩, ⟨yv, EC_PRIME⟩), A, B⟩ true =
      .ok ((if yv % 2 = 0 then 2 else 3) :: natToBytesBE 32 xv) := by
  have hx2 : xv < 2 ^ 256 := lt_trans hx EC_PRIME_lt_2_256
  simp only [sec]
  rw [show (toBytes32 (⟨xv, EC_PRIME⟩ : ModularFieldInteger).value) =
      .ok (natToBytesBE 32 xv) from by rw [toBytes32, if_pos hx2], okBind]
  by_cases hpar : yv % 2 = 0
  · rw [if_pos hpar, if_pos hpar]
    rfl
  · rw [if_neg hpar, if_neg hpar]
    rfl

theorem s256Parse_uncompressed (xv yv : Nat) (hx : xv < EC_PRIME) (hy : yv < EC_PRIME)
    (hoc : is_on_elliptic_curve ⟨xv, EC_PRIME⟩ ⟨yv, EC_PRIME⟩ A B = .ok true) :
    s256Parse (4 :: (natToBytesBE 32 xv ++ natToBytesBE 32 yv)) =
      .ok ⟨some (⟨xv, EC_PRIME⟩, ⟨yv, EC_PRIME⟩), A, B⟩ := by
  have hx2 : xv < 256 ^ 32 := by rw [pow256_32]; exact lt_trans hx EC_PRIME_lt_2_256
  have hy2 : yv < 256 ^ 32 := by rw [pow256_32]; exact lt_trans hy EC_PRIME_lt_2_256
  rw [s256Parse]
  rw [if_pos rfl, if_pos (by simp [natToBytesBE_length]),
    List.take_left' (natToBytesBE_length 32 xv), List.drop_left' (natToBytesBE_length 32 xv),
    fromBytesBE_natToBytesBE_of_lt 32 xv hx2, fromBytesBE_natToBytesBE_of_lt 32 yv hy2,
    mkS256Point]
  simp only [Option.map_some']
  rw [Nat.mod_eq_of_lt hx, Nat.mod_eq_of_lt hy, mkEllipcCurvePoint, hoc, okBind]
  rfl

/-- The RHS helper of the spec-modelled decoder, evaluated and read in
`ZMod EC_PRIME`. -/
theorem rhs_eval (hp : Nat.Prime EC_PRIME) (xv : Nat) :
    ∃ V : Nat, is_on_elliptic_curve_rhs ⟨xv, EC_PRIME⟩ = .ok ⟨V, EC_PRIME⟩ ∧
      V < EC_PRIME ∧ (V : ZMod EC_PRIME) =
        (xv : ZMod EC_PRIME) ^ 3 + (EC_A : ZMod EC_PRIME) * (xv : ZMod EC_PRIME) +
          (EC_B : ZMod EC_PRIME) := by
  rw [is_on_elliptic_curve_rhs, A_eq, B_eq, fmul_pp, okBind,
    fpow_three_pp hp EC_PRIME_gt_three, fadd_pp, okBind, fadd_pp]
  refine ⟨_, rfl, Nat.mod_lt _ hp.pos, ?_⟩
  rw [cast_add_mod, cast_add_mod, cast_powMod hp.pos, cast_mul_mod]

/-- Parity-based root selection in the spec-modelled decoder returns
exactly the encoded `y`. -/
theorem sqrt_select (hp : Nat.Prime EC_PRIME) (yv ysq : Nat) (hy : yv < EC_PRIME)
    (hcast : (ysq : ZMod EC_PRIME) = (yv : ZMod EC_PRIME) ^ 2) :
    (if powMod ysq ((EC_PRIME + 1) / 4) EC_PRIME % 2 = yv % 2
      then (⟨powMod ysq ((EC_PRIME + 1) / 4) EC_PRIME, EC_PRIME⟩ : ModularFieldInteger)
      else ⟨(EC_PRIME - powMod ysq ((EC_PRIME + 1) / 4) EC_PRIME) % EC_PRIME, EC_PRIME⟩) =
      ⟨yv, EC_PRIME⟩ := by
  have hodd : EC_PRIME % 2 = 1 := by decide
  have hwlt : powMod ysq ((EC_PRIME + 1) / 4) EC_PRIME < EC_PRIME :=
    powMod_lt _ _ _ hp.pos
  rcases sqrt_two_roots hp EC_PRIME_gt_three EC_PRIME_mod4 yv ysq hy hcast with h | h
  · rw [h, if_pos rfl]
  · by_cases hy0 : yv = 0
    · subst hy0
      have : powMod ysq ((EC_PRIME + 1) / 4) EC_PRIME = 0 := by omega
      rw [this, if_pos (by omega)]
    · have hne : powMod ysq ((EC_PRIME + 1) / 4) EC_PRIME % 2 ≠ yv % 2 := by omega
      rw [if_neg hne, h]
      have : EC_PRIME - (EC_PRIME - yv) = yv := by omega
      rw [this, Nat.mod_eq_of_lt hy]

theorem s256Parse_compressed (hp : Nat.Prime EC_PRIME) (xv yv : Nat)
    (hx : xv < EC_PRIME) (hy : yv < EC_PRIME)
    (hoc : is_on_elliptic_curve ⟨xv, EC_PRIME⟩ ⟨yv, EC_PRIME⟩ A B = .ok true) :
    s256Parse ((if yv % 2 = 0 then 2 else 3) :: natToBytesBE 32 xv) =
      .ok ⟨some (⟨xv, EC_PRIME⟩, ⟨yv, EC_PRIME⟩), A, B⟩ := by
  have hx2 : xv < 256 ^ 32 := by rw [pow256_32]; exact lt_trans hx EC_PRIME_lt_2_256
  obtain ⟨V, hV, hVlt, hVcast⟩ := rhs_eval hp xv
  have hoc' := hoc
  rw [A_eq, B_eq] at hoc'
  have hE := (isOnCurve_iff_equation hp EC_PRIME_gt_three xv yv EC_A EC_B).mp hoc'
  have hyy : (V : ZMod EC_PRIME) = (yv : ZMod EC_PRIME) ^ 2 := by
    rw [hVcast]
    rw [WeierstrassCurve.Affine.equation_iff] at hE
    simp only [toWeierstrass] at hE
    linear_combination -hE
  have hsel := sqrt_select hp yv V hy hyy
  have hparse : ∀ hdr : Nat, hdr = 2 ∨ hdr = 3 →
      ((if hdr = 3 then 1 else 0) = yv % 2) →
      s256Parse (hdr :: natToBytesBE 32 xv) =
        .ok ⟨some (⟨xv, EC_PRIME⟩, ⟨yv, EC_PRIME⟩), A, B⟩ := by
    intro hdr h23 hpar
    rw [s256Parse]
    rw [if_neg (by rcases h23 with rfl | rfl <;> omega),
      if_pos ⟨h23, natToBytesBE_length 32 xv⟩]
    simp only [fromBytesBE_natToBytesBE_of_lt 32 xv hx2, Nat.mod_eq_of_lt hx, hV]
    simp only [s256Sqrt_eq, hpar]
    rw [hsel, mkEllipcCurvePoint, hoc, okBind]
    rfl
  by_cases hpar : yv % 2 = 0
  · rw [if_pos hpar]
    exact hparse 2 (Or.inl rfl) (by simpa using hpar.symm)
  · rw [if_neg hpar]
    refine hparse 3 (Or.inr rfl) ?_
    rw [if_pos rfl]
    omega

/-- A checkable Lucas certificate: `a` has order `p - 1` modulo `p`,
witnessed through a complete list of the prime factors of `p - 1`. -/
theorem prime_of_lucas_certificate (p a : Nat) (qs : List Nat)
    (hp : 2 ≤ p)
    (hprod : qs.prod = p - 1)
    (hqs : ∀ q ∈ qs, Nat.Prime q)
    (ha : powMod a (p - 1) p = 1)
    (hne : ∀ q ∈ qs, powMod a ((p - 1) / q) p ≠ 1) :
    Nat.Prime p := by
  have hp0 : 0 < p := by omega
  haveI : Fact (1 < p) := ⟨by omega⟩
  refine lucas_primality p (a : Nat) ?_ ?_
  · have hc := cast_powMod hp0 a (p - 1)
    rw [ha] at hc
    rw [← hc]
    exact Nat.cast_one
  · intro q hq hdvd
    have hqmem : q ∈ qs := by
      have hdvd' : q ∣ qs.prod := by rw [hprod]; exact hdvd
      obtain ⟨r, hr, hqr⟩ := (hq.prime.dvd_prod_iff).mp hdvd'
      have : q = r := (Nat.prime_dvd_prime_iff_eq hq (hqs r hr)).mp hqr
      rwa [this]
    intro hcontra
    apply hne q hqmem
    have hcast := cast_powMod hp0 a ((p - 1) / q)
    rw [hcontra] at hcast
    have hlt := powMod_lt a ((p - 1) / q) p hp0
    have hv := congrArg ZMod.val hcast
    rwa [ZMod.val_cast_of_lt hlt, ZMod.val_one p] at hv

/-! The Lucas certificate chain for `Nat.Prime EC_PRIME`: each step
factors the predecessor of the prime and exhibits an element of full
order.  Small factors are certified by `norm_num`, large ones by the
previous step. -/

set_option maxRecDepth 100000 in
theorem prime_c7a : Nat.Prime 1206781 := by
  refine prime_of_lucas_certificate 1206781 10
    [2, 2, 3, 5, 20113] (by norm_num) (by decide) ?_ (by decide) ?_
  · intro q hq
    simp only [List.mem_cons, List.not_mem_nil, or_false] at hq
    rcases hq with rfl | rfl | rfl | rfl | rfl <;> norm_num
  · intro q hq
    simp only [List.mem_cons, List.not_mem_nil, or_false] at hq
    rcases hq with rfl | rfl | rfl | rfl | rfl <;> decide

set_option maxRecDepth 100000 in
theorem prime_c7b : Nat.Prime 7240687 := by
  refine prime_of_lucas_certificate 7240687 3
    [2, 3, 1206781] (by norm_num) (by decide) ?_ (by decide) ?_
  · intro q hq
    simp only [List.mem_cons, List.not_mem_nil, or_false] at hq
    rcases hq with rfl | rfl | rfl
    · norm_num
    · norm_num
    · exact prime_c7a
  · intro q hq
    simp only [List.mem_cons, List.not_mem_nil, or_false] at hq
    rcases hq with rfl | rfl | rfl <;> decide

set_option maxRecDepth 100000 in
theorem prime_c9a : Nat.Prime 107590001 := by
  refine prime_of_lucas_certificate 107590001 3
    [2, 2, 2, 2, 5, 5, 5, 5, 7, 29, 53] (by norm_num) (by decide) ?_ (by decide) ?_
  · intro q hq
    simp only [List.mem_cons, List.not_mem_nil, or_false] at hq
    rcases hq with rfl | rfl | rfl | rfl | rfl | rfl | rfl | rfl | rfl | rfl | rfl <;> norm_num
  · intro q hq
    simp only [List.mem_cons, List.not_mem_nil, or_false] at hq
    rcases hq with rfl | rfl | rfl | rfl | rfl | rfl | rfl | rfl | rfl | rfl | rfl <;> decide

set_option maxRecDepth 100000 in
theorem prime_c17 : Nat.Prime 173378833005251801 := by
  refine prime_of_lucas_certificate 173378833005251801 6
    [2, 2, 2, 5, 5, 2621, 24809, 13331831] (by norm_num) (by decide) ?_ (by decide) ?_
  · intro q hq
    simp only [List.mem_cons, List.not_mem_nil, or_false] at hq
    rcases hq with rfl | rfl | rfl | rfl | rfl | rfl | rfl | rfl <;> norm_num
  · intro q hq
    simp only [List.mem_cons, List.not_mem_nil, or_false] at hq
    rcases hq with rfl | rfl | rfl | rfl | rfl | rfl | rfl | rfl <;> decide

set_option maxRecDepth 100000 in
theorem prime_c22 : Nat.Prime 22149492674086928081353 := by
  refine prime_of_lucas_certificate 22149492674086928081353 5
    [2, 2, 2, 3, 5323, 173378833005251801] (by norm_num) (by decide) ?_ (by decide) ?_
  · intro q hq
    simp only [List.mem_cons, List.not_mem_nil, or_false] at hq
    rcases hq with rfl | rfl | rfl | rfl | rfl | rfl
    · norm_num
    · norm_num
    · norm_num
    · norm_num
    · norm_num
    · exact prime_c17
  · intro q hq
    simp only [List.mem_cons, List.not_mem_nil, or_false] at hq
    rcases hq with rfl | rfl | rfl | rfl | rfl | rfl <;> decide

set_option maxRecDepth 100000 in
theorem prime_c24 : Nat.Prime 132896956044521568488119 := by
  refine prime_of_lucas_certificate 132896956044521568488119 6
    [2, 3, 22149492674086928081353] (by norm_num) (by decide) ?_ (by decide) ?_
  · intro q hq
    simp only [List.mem_cons, List.not_mem_nil, or_false] at hq
    rcases hq with rfl | rfl | rfl
    · norm_num
    · norm_num
    · exact prime_c22
  · intro q hq
    simp only [List.mem_cons, List.not_mem_nil, or_false] at hq
    rcases hq with rfl | rfl | rfl <;> decide

set_option maxRecDepth 100000 in
theorem prime_c39 : Nat.Prime 255515944373312847190720520512484175977 := by
  refine prime_of_lucas_certificate 255515944373312847190720520512484175977 3
    [2, 2, 2, 7, 7, 11, 1627, 2657, 4423, 41201, 96557, 7240687, 107590001]
    (by norm_num) (by decide) ?_ (by decide) ?_
  · intro q hq
    simp only [List.mem_cons, List.not_mem_nil, or_false] at hq
    rcases hq with rfl | rfl | rfl | rfl | rfl | rfl | rfl | rfl | rfl | rfl | rfl | rfl | rfl
    · norm_num
    · norm_num
    · norm_num
    · norm_num
    · norm_num
    · norm_num
    · norm_num
    · norm_num
    · norm_num
    · norm_num
    · norm_num
    · exact prime_c7b
    · exact prime_c9a
  · intro q hq
    simp only [List.mem_cons, List.not_mem_nil, or_false] at hq
    rcases hq with rfl | rfl | rfl | rfl | rfl | rfl | rfl | rfl | rfl | rfl | rfl | rfl |
      rfl <;> decide

set_option maxRecDepth 100000 in
theorem prime_c72 : Nat.Prime
    205115282021455665897114700593932402728804164701536103180137503955397371 := by
  refine prime_of_lucas_certificate
    205115282021455665897114700593932402728804164701536103180137503955397371 10
    [2, 3, 5, 29, 29, 31, 7723, 132896956044521568488119,
      255515944373312847190720520512484175977] (by norm_num) (by decide) ?_ (by decide) ?_
  · intro q hq
    simp only [List.mem_cons, List.not_mem_nil, or_false] at hq
    rcases hq with rfl | rfl | rfl | rfl | rfl | rfl | rfl | rfl | rfl
    · norm_num
    · norm_num
    · norm_num
    · norm_num
    · norm_num
    · norm_num
    · norm_num
    · exact prime_c24
    · exact prime_c39
  · intro q hq
    simp only [List.mem_cons, List.not_mem_nil, or_false] at hq
    rcases hq with rfl | rfl | rfl | rfl | rfl | rfl | rfl | rfl | rfl <;> decide

set_option maxRecDepth 100000 in
theorem EC_PRIME_prime : Nat.Prime EC_PRIME := by
  have h : EC_PRIME =
      115792089237316195423570985008687907853269984665640564039457584007908834671663 :=
    by decide
  rw [h]
  refine prime_of_lucas_certificate
    115792089237316195423570985008687907853269984665640564039457584007908834671663 3
    [2, 3, 7, 13441,
      205115282021455665897114700593932402728804164701536103180137503955397371]
    (by norm_num) (by decide) ?_ (by decide) ?_
  · intro q hq
    simp only [List.mem_cons, List.not_mem_nil, or_false] at hq
    rcases hq with rfl | rfl | rfl | rfl | rfl
    · norm_num
    · norm_num
    · norm_num
    · norm_num
    · exact prime_c72
  · intro q hq
    simp only [List.mem_cons, List.not_mem_nil, or_false] at hq
    rcases hq with rfl | rfl | rfl | rfl | rfl <;> decide

/-- Both SEC round trips, given primality of the field prime (established
separately by the Lucas certificate chain). -/
theorem sec_parse_round_trip_param (hp : Nat.Prime EC_PRIME) (xv yv : Nat)
    (hx : xv < EC_PRIME) (hy : yv < EC_PRIME)
    (hoc : is_on_elliptic_curve ⟨xv, EC_PRIME⟩ ⟨yv, EC_PRIME⟩ A B = .ok true) :
    ((sec ⟨some (⟨xv, EC_PRIME⟩, ⟨yv, EC_PRIME⟩), A, B⟩ true).bind s256Parse =
        .ok ⟨some (⟨xv, EC_PRIME⟩, ⟨yv, EC_PRIME⟩), A, B⟩) ∧
    ((sec ⟨some (⟨xv, EC_PRIME⟩, ⟨yv, EC_PRIME⟩), A, B⟩ false).bind s256Parse =
        .ok ⟨some (⟨xv, EC_PRIME⟩, ⟨yv, EC_PRIME⟩), A, B⟩) := by
  constructor
  · rw [sec_compressed xv yv hx, okBindE]
    exact s256Parse_compressed hp xv yv hx hy hoc
  · rw [sec_uncompressed xv yv hx hy, okBindE]
    exact s256Parse_uncompressed xv yv hx hy hoc

/-- C6: SEC round trip.  For every finite point of the secp256k1 curve
(reduced coordinates satisfying the constructor's curve check), decoding
the SEC encoding returns the same point, both for the 33-byte compressed
form and for the 65-byte uncompressed form.  The decoder is the
spec-modelled `s256Parse` (the source leaves `S256Point.parse`
unimplemented). -/
theorem C6_sec_round_trip (xv yv : Nat) (hx : xv < EC_PRIME) (hy : yv < EC_PRIME)
    (hoc : is_on_elliptic_curve ⟨xv, EC_PRIME⟩ ⟨yv, EC_PRIME⟩ A B = .ok true) :
    ((sec ⟨some (⟨xv, EC_PRIME⟩, ⟨yv, EC_PRIME⟩), A, B⟩ true).bind s256Parse =
        .ok ⟨some (⟨xv, EC_PRIME⟩, ⟨yv, EC_PRIME⟩), A, B⟩) ∧
    ((sec ⟨some (⟨xv, EC_PRIME⟩, ⟨yv, EC_PRIME⟩), A, B⟩ false).bind s256Parse =
        .ok ⟨some (⟨xv, EC_PRIME⟩, ⟨yv, EC_PRIME⟩), A, B⟩) :=
  sec_parse_round_trip_param EC_PRIME_prime xv yv hx hy hoc

/-- Witness for C6 at the generator point `(G_X, G_Y)`. -/
theorem C6_sec_round_trip_witness :
    ((sec ⟨some (⟨G_X, EC_PRIME⟩, ⟨G_Y, EC_PRIME⟩), A, B⟩ true).bind s256Parse =
        .ok ⟨some (⟨G_X, EC_PRIME⟩, ⟨G_Y, EC_PRIME⟩), A, B⟩) ∧
    ((sec ⟨some (⟨G_X, EC_PRIME⟩, ⟨G_Y, EC_PRIME⟩), A, B⟩ false).bind s256Parse =
        .ok ⟨some (⟨G_X, EC_PRIME⟩, ⟨G_Y, EC_PRIME⟩), A, B⟩) :=
  C6_sec_round_trip G_X G_Y (by decide) (by decide) (by rfl)

end BtcToy
